import Mathlib

/-!
Verification of the dependency-mirroring pipeline of the
sustainable-browser-extension repository against its specification.

The TypeScript sources are shallowly embedded: JavaScript objects with
string keys become insertion-ordered association lists, fallible code
returns Option or Except, and Array.prototype.sort (stable as required by
ES2019, hence uniquely determined by a total-preorder comparator) is
modelled by a structurally recursive stable insertion sort.
External boundaries (the semver library's satisfies check, the Babel
parser, WHATWG URL resolution, regex text substitution) enter as
explicit parameters or as small models documented at their definition.
-/

/-! ## JavaScript object model

A JavaScript object with string keys is modelled as an association list in
insertion order.  Property read is first-match lookup; property write
replaces the value in place when the key exists and appends otherwise,
which is exactly the key-ordering behaviour of JS objects and Maps. -/

/-- JS property read obj[k]: first binding of the key, if any. -/
def jsGet (o : List (String × α)) (k : String) : Option α :=
  match o with
  | [] => none
  | e :: t => if e.1 = k then some e.2 else jsGet t k

/-- JS property write obj[k] = v: overwrite the binding in place when the key
exists (keys of a JS object are unique, so replacing the first binding is the
object semantics), append otherwise. -/
def jsSet (o : List (String × α)) (k : String) (v : α) : List (String × α) :=
  match o with
  | [] => [(k, v)]
  | e :: t => if e.1 = k then (k, v) :: t else e :: jsSet t k v

/-- Object.fromEntries / repeated Map.set. First occurrence fixes the key
position, later occurrences overwrite the value. -/
def jsFromEntries (l : List (String × α)) : List (String × α) :=
  l.foldl (fun acc e => jsSet acc e.1 e.2) []

theorem jsGet_jsSet_self (o : List (String × α)) (k : String) (v : α) :
    jsGet (jsSet o k v) k = some v := by
  induction o with
  | nil => simp [jsGet, jsSet]
  | cons a t ih =>
    by_cases ha : a.1 = k
    · simp [jsGet, jsSet, ha]
    · simp [jsGet, jsSet, ha, ih]

theorem jsGet_jsSet_other (o : List (String × α)) (k k2 : String) (v : α)
    (hne : k2 ≠ k) : jsGet (jsSet o k v) k2 = jsGet o k2 := by
  have hne2 : ¬ k = k2 := fun h => hne h.symm
  induction o with
  | nil => simp [jsGet, jsSet, hne2]
  | cons a t ih =>
    by_cases ha : a.1 = k
    · have hak2 : ¬ a.1 = k2 := by rw [ha]; exact hne2
      simp [jsGet, jsSet, ha, hne2, hak2]
    · by_cases hb : a.1 = k2
      · simp [jsGet, jsSet, ha, hb, hne]
      · simp [jsGet, jsSet, ha, hb, ih]

/-! ## Configuration and analysis data model (analyze-dependencies.ts) -/

/-- CDNMapping from cdn-mappings.json: package name to CDN URL template, plus
the sameVersionRequired groups.  (standaloneSubpaths is irrelevant to the
claims under verification and omitted.) -/
structure CDNMapping where
  packages : List (String × String)
  sameVersionRequired : List (List String)
deriving DecidableEq

/-- PackageInfo as gathered per analyzed version. -/
structure PackageInfo where
  name : String
  version : String
  peerDependencies : List (String × String)
  hasManagedImports : Bool
deriving DecidableEq

/-- AnalyzedDependency (analyze-dependencies.ts, first copy).  peerContext
values are Option String because the permutation engine can store an
undefined version (out-of-bounds array read) in a peer context slot. -/
structure AnalyzedDependency where
  name : String
  version : String
  url : String
  downloaded : Bool
  transformed : Bool
  peerContext : Option (List (String × Option String))
  peerDependencies : Option (List (String × String))
  depth : Nat
deriving DecidableEq

/-- String interpolation of a possibly-undefined JS value. -/
def jsShow (o : Option String) : String := o.getD "undefined"

/-! ## Permutation Engine (DependencyAnalyzer.createPeerPermutations) -/

/-- DependencyAnalyzer.filterVersionsByConstraint.  The semver library is the
external boundary: sat v c models semver.satisfies(semver.clean(v), c); the
throw on an uncleanable version or unparsable constraint is outside the
claims, which quantify over catalogs of valid versions. -/
def filterVersionsByConstraint (sat : String → String → Bool)
    (versions : List String) (constraint : String) : List String :=
  versions.filter (fun v => sat v constraint)

/-- Grouping loop shared by createPeerPermutations and
calculatePermutationCount: partition the valid peer names into
sameVersionRequired slots (first matching configured group, filtered to the
peers that are present with a JS-truthy constraint, pushed only when no
already-pushed slot overlaps the configured group) and independent peers. -/
def groupPartition (svr : List (List String)) (validKeys : List String)
    (vget : String → Option String) : List (List String) × List String :=
  validKeys.foldl (fun acc peerName =>
    match svr.find? (fun g => g.contains peerName) with
    | some g =>
      if acc.1.any (fun eg => eg.any (fun n => g.contains n)) then acc
      else
        let relevant := g.filter (fun n => ((vget n).getD "") ≠ "")
        if relevant.isEmpty then acc else (acc.1 ++ [relevant], acc.2)
    | none => (acc.1, acc.2 ++ [peerName])) ([], [])

/-- DependencyAnalyzer.generateCartesianProduct. -/
def generateCartesianProduct : List (List String) → List (List String)
  | [] => [[]]
  | [arr] => arr.map (fun item => [item])
  | arr :: rest =>
    (arr.map (fun item =>
      (generateCartesianProduct rest).map (fun c => item :: c))).flatten

/-- Version-broadcast phase of createPeerPermutations: walk the groups with a
running versionIndex (group i reads combination[i]), assigning the chosen
version to every member of the group.  An index past the end of the
combination reads undefined (none). -/
def assignGroupVersions (combo : List String) :
    Nat → List (List String) → List (String × Option String) →
    List (String × Option String)
  | _, [], acc => acc
  | i, g :: gs, acc =>
    assignGroupVersions combo (i + 1) gs
      (g.foldl (fun a m => jsSet a m (combo.get? i)) acc)

/-- Independent-peer phase: peer j reads combination[groups.length + j]. -/
def assignIndependentVersions (combo : List String) :
    Nat → List String → List (String × Option String) →
    List (String × Option String)
  | _, [], acc => acc
  | i, p :: ps, acc =>
    assignIndependentVersions combo (i + 1) ps (jsSet acc p (combo.get? i))

/-- Filter at the top of createPeerPermutations: drop wildcard constraints,
unmanaged peers and the package itself, with Object.fromEntries semantics. -/
def validPeerDepsOf (cfg : CDNMapping) (peerDeps : List (String × String))
    (currentPackageName : Option String) : List (String × String) :=
  jsFromEntries (peerDeps.filter (fun e =>
    e.2 != "*" && (cfg.packages.map (·.1)).contains e.1 &&
      currentPackageName != some e.1))

/-- Slot structure computed inside createPeerPermutations. -/
def peerSlots (cfg : CDNMapping) (peerDeps : List (String × String))
    (currentPackageName : Option String) : List (List String) × List String :=
  let validPeerDeps := validPeerDepsOf cfg peerDeps currentPackageName
  groupPartition cfg.sameVersionRequired (validPeerDeps.map (·.1))
    (fun n => jsGet validPeerDeps n)

/-- Compatible-version list of each sameVersionRequired slot: the slot's first
member's available versions filtered by that member's constraint. -/
def groupSlotVersions (cfg : CDNMapping)
    (availableVersions : List (String × List String))
    (sat : String → String → Bool) (peerDeps : List (String × String))
    (currentPackageName : Option String) : List (List String) :=
  let validPeerDeps := validPeerDepsOf cfg peerDeps currentPackageName
  (peerSlots cfg peerDeps currentPackageName).1.map (fun g =>
    filterVersionsByConstraint sat
      ((jsGet availableVersions (g.headD "")).getD [])
      ((jsGet validPeerDeps (g.headD "")).getD ""))

/-- Compatible-version list of each independent-peer slot. -/
def indepSlotVersions (cfg : CDNMapping)
    (availableVersions : List (String × List String))
    (sat : String → String → Bool) (peerDeps : List (String × String))
    (currentPackageName : Option String) : List (List String) :=
  let validPeerDeps := validPeerDepsOf cfg peerDeps currentPackageName
  (peerSlots cfg peerDeps currentPackageName).2.map (fun p =>
    filterVersionsByConstraint sat
      ((jsGet availableVersions p).getD [])
      ((jsGet validPeerDeps p).getD ""))

/-- DependencyAnalyzer.createPeerPermutations (analyze-dependencies.ts
lines 700-813).  sat is the semver-satisfies boundary.  Note the source
pushes a slot's compatible-version list onto the Cartesian-product input
only when it is nonempty (the .filter below), while the version-broadcast
loops still walk every slot, so an empty slot shifts the later version
indices and its peers read undefined. -/
def createPeerPermutations (cfg : CDNMapping)
    (availableVersions : List (String × List String))
    (sat : String → String → Bool) (peerDeps : List (String × String))
    (currentPackageName : Option String) :
    List (List (String × Option String)) :=
  let validPeerDeps := validPeerDepsOf cfg peerDeps currentPackageName
  if validPeerDeps.isEmpty then []
  else
    let sameVersionGroups := (peerSlots cfg peerDeps currentPackageName).1
    let independentPeers := (peerSlots cfg peerDeps currentPackageName).2
    let groupVersions :=
      (groupSlotVersions cfg availableVersions sat peerDeps
        currentPackageName).filter (fun l => !l.isEmpty)
    let independentVersions :=
      (indepSlotVersions cfg availableVersions sat peerDeps
        currentPackageName).filter (fun l => !l.isEmpty)
    let allVersionCombinations :=
      generateCartesianProduct (groupVersions ++ independentVersions)
    let permutations := allVersionCombinations.map (fun combo =>
      assignIndependentVersions combo sameVersionGroups.length
        independentPeers
        (assignGroupVersions combo 0 sameVersionGroups []))
    if permutations.isEmpty then [] else permutations

/-- DependencyAnalyzer.calculatePermutationCount (analyze-dependencies.ts
lines 815-900).  Note its filter keeps the current package itself and it
returns 0 for a package inside a sameVersionRequired group, and, unlike
createPeerPermutations, it multiplies in a hard zero when a slot has no
compatible version. -/
def calculatePermutationCount (cfg : CDNMapping)
    (availableVersions : List (String × List String))
    (sat : String → String → Bool) (peerDeps : List (String × String))
    (currentPackageName : Option String) : Nat :=
  let managedPackages := cfg.packages.map (·.1)
  let validPeerDeps := jsFromEntries (peerDeps.filter (fun e =>
    e.2 != "*" && managedPackages.contains e.1))
  if currentPackageName.elim false (fun n =>
      cfg.sameVersionRequired.any (fun g => g.contains n)) then 0
  else if validPeerDeps.isEmpty then 1
  else
    let vget := fun n => jsGet validPeerDeps n
    let part := groupPartition cfg.sameVersionRequired
      (validPeerDeps.map (·.1)) vget
    let groupCounts := part.1.map (fun g =>
      (filterVersionsByConstraint sat
        ((jsGet availableVersions (g.headD "")).getD [])
        ((vget (g.headD "")).getD "")).length)
    let indepCounts := part.2.map (fun p =>
      (filterVersionsByConstraint sat
        ((jsGet availableVersions p).getD [])
        ((vget p).getD "")).length)
    if (groupCounts ++ indepCounts).any (fun c => c == 0) then 0
    else (groupCounts ++ indepCounts).prod

/-! ## C1: permutation count and group broadcast -/

theorem sum_map_const_nat (l : List α) (n : Nat) :
    (l.map (fun _ => n)).sum = l.length * n := by
  induction l with
  | nil => simp
  | cons a t ih => simp [ih, Nat.succ_mul, Nat.add_comm]

theorem length_generateCartesianProduct :
    ∀ ls : List (List String),
      (generateCartesianProduct ls).length = (ls.map List.length).prod
  | [] => by simp [generateCartesianProduct]
  | [arr] => by simp [generateCartesianProduct]
  | arr :: b :: rest => by
    have ih := length_generateCartesianProduct (b :: rest)
    simp only [generateCartesianProduct, List.length_flatten, List.map_map,
      Function.comp_def, List.length_map]
    rw [sum_map_const_nat, ih]
    simp [List.map_cons, List.prod_cons]

/-- Invariant of the grouping loop: pushed slots are pairwise disjoint, each
is contained in a configured group, and independent peers lie in no
configured group. -/
structure PartInv (svr : List (List String))
    (st : List (List String) × List String) : Prop where
  disj : List.Pairwise (fun g1 g2 => ∀ x ∈ g1, x ∉ g2) st.1
  sub : ∀ g ∈ st.1, ∃ G ∈ svr, ∀ x ∈ g, x ∈ G
  ind : ∀ n ∈ st.2, ∀ G ∈ svr, n ∉ G

theorem groupPartition_step_inv (svr : List (List String))
    (vget : String → Option String) (st : List (List String) × List String)
    (p : String) (hst : PartInv svr st) :
    PartInv svr (match svr.find? (fun g => g.contains p) with
      | some g =>
        if st.1.any (fun eg => eg.any (fun n => g.contains n)) then st
        else
          let relevant := g.filter (fun n => ((vget n).getD "") ≠ "")
          if relevant.isEmpty then st else (st.1 ++ [relevant], st.2)
      | none => (st.1, st.2 ++ [p])) := by
  cases hfind : svr.find? (fun g => g.contains p) with
  | none =>
    refine ⟨hst.disj, hst.sub, ?_⟩
    intro n hn G hG
    rcases List.mem_append.mp hn with h1 | h1
    · exact hst.ind n h1 G hG
    · have hn2 : n = p := by simpa using h1
      subst hn2
      have h2 := List.find?_eq_none.mp hfind G hG
      intro hmem
      exact h2 (List.elem_iff.mpr hmem)
  | some g =>
    have hgmem : g ∈ svr := List.mem_of_find?_eq_some hfind
    show PartInv svr
      (if st.1.any (fun eg => eg.any (fun n => g.contains n)) then st
       else
         let relevant := g.filter (fun n => ((vget n).getD "") ≠ "")
         if relevant.isEmpty then st else (st.1 ++ [relevant], st.2))
    split
    · exact hst
    · next hover =>
      show PartInv svr
        (if (g.filter (fun n => ((vget n).getD "") ≠ "")).isEmpty then st
         else (st.1 ++ [g.filter (fun n => ((vget n).getD "") ≠ "")], st.2))
      split
      · exact hst
      · next hrel =>
        have hsubg : ∀ x ∈ g.filter (fun n => ((vget n).getD "") ≠ ""),
            x ∈ g := fun x hx => List.mem_of_mem_filter hx
        refine ⟨?_, ?_, ?_⟩
        · rw [List.pairwise_append]
          refine ⟨hst.disj, List.pairwise_singleton _ _, ?_⟩
          intro g1 hg1 g2 hg2 x hx hxg2
          have hg2e : g2 = g.filter (fun n => ((vget n).getD "") ≠ "") :=
            List.mem_singleton.mp hg2
          have hxg : x ∈ g := hsubg x (hg2e ▸ hxg2)
          apply hover
          rw [List.any_eq_true]
          refine ⟨g1, hg1, ?_⟩
          rw [List.any_eq_true]
          exact ⟨x, hx, List.elem_iff.mpr hxg⟩
        · intro g2 hg2
          rcases List.mem_append.mp hg2 with h1 | h1
          · exact hst.sub g2 h1
          · have hg2e : g2 = g.filter (fun n => ((vget n).getD "") ≠ "") :=
              List.mem_singleton.mp h1
            subst hg2e
            exact ⟨g, hgmem, hsubg⟩
        · exact hst.ind

theorem groupPartition_inv (svr : List (List String)) (keys : List String)
    (vget : String → Option String) :
    PartInv svr (groupPartition svr keys vget) := by
  unfold groupPartition
  suffices h : ∀ st, PartInv svr st →
      PartInv svr (keys.foldl (fun acc peerName =>
        match svr.find? (fun g => g.contains peerName) with
        | some g =>
          if acc.1.any (fun eg => eg.any (fun n => g.contains n)) then acc
          else
            let relevant := g.filter (fun n => ((vget n).getD "") ≠ "")
            if relevant.isEmpty then acc else (acc.1 ++ [relevant], acc.2)
        | none => (acc.1, acc.2 ++ [peerName])) st) by
    exact h ([], []) ⟨by simp, by simp, by simp⟩
  induction keys with
  | nil => intro st hst; exact hst
  | cons p t ih =>
    intro st hst
    simp only [List.foldl_cons]
    exact ih _ (groupPartition_step_inv svr vget st p hst)

theorem jsGet_foldl_jsSet_const (g : List String) (acc : List (String × α))
    (v : α) (x : String) :
    jsGet (g.foldl (fun a m => jsSet a m v) acc) x
      = if x ∈ g then some v else jsGet acc x := by
  induction g generalizing acc with
  | nil => simp
  | cons m t ih =>
    simp only [List.foldl_cons]
    rw [ih]
    by_cases hx : x ∈ t
    · simp [hx]
    · by_cases hxm : x = m
      · subst hxm; simp [hx, jsGet_jsSet_self]
      · simp [hx, hxm, jsGet_jsSet_other _ _ _ _ hxm]

theorem jsGet_assignGroupVersions_notmem (combo : List String)
    (gs : List (List String)) (i : Nat) (acc : List (String × Option String))
    (x : String) (hx : ∀ g ∈ gs, x ∉ g) :
    jsGet (assignGroupVersions combo i gs acc) x = jsGet acc x := by
  induction gs generalizing i acc with
  | nil => simp [assignGroupVersions]
  | cons g t ih =>
    simp only [assignGroupVersions]
    rw [ih _ _ (fun g2 hg2 => hx g2 (List.mem_cons_of_mem _ hg2))]
    rw [jsGet_foldl_jsSet_const]
    simp [hx g (List.mem_cons_self _ _)]

theorem jsGet_assignGroupVersions_mem (combo : List String)
    (gs : List (List String)) (i : Nat) (acc : List (String × Option String))
    (x : String) (j : Nat) (g : List String)
    (hj : gs.get? j = some g) (hx : x ∈ g)
    (hdisj : List.Pairwise (fun g1 g2 => ∀ y ∈ g1, y ∉ g2) gs) :
    jsGet (assignGroupVersions combo i gs acc) x = some (combo.get? (i + j)) := by
  induction gs generalizing i acc j with
  | nil => simp at hj
  | cons g0 t ih =>
    cases j with
    | zero =>
      have hg : g0 = g := by simpa using hj
      subst hg
      simp only [assignGroupVersions]
      have hnot : ∀ g2 ∈ t, x ∉ g2 := by
        intro g2 hg2
        exact (List.pairwise_cons.mp hdisj).1 g2 hg2 x hx
      rw [jsGet_assignGroupVersions_notmem _ _ _ _ _ hnot]
      rw [jsGet_foldl_jsSet_const]
      simp [hx]
    | succ j2 =>
      simp only [assignGroupVersions]
      have hj2 : t.get? j2 = some g := by simpa using hj
      have h2 := ih (i + 1)
        (g0.foldl (fun a m => jsSet a m (combo.get? i)) acc) j2 hj2
        (List.pairwise_cons.mp hdisj).2
      rw [h2]
      congr 2
      omega

theorem jsGet_assignIndependentVersions_notmem (combo : List String)
    (ps : List String) (i : Nat) (acc : List (String × Option String))
    (x : String) (hx : x ∉ ps) :
    jsGet (assignIndependentVersions combo i ps acc) x = jsGet acc x := by
  induction ps generalizing i acc with
  | nil => simp [assignIndependentVersions]
  | cons p t ih =>
    simp only [assignIndependentVersions]
    rw [ih _ _ (fun h => hx (List.mem_cons_of_mem _ h))]
    exact jsGet_jsSet_other _ _ _ _ (fun h => hx (h ▸ List.mem_cons_self _ _))

/-- Length of a JS-style "return empty if empty" epilogue. -/
theorem length_ite_isEmpty (l : List α) :
    (if l.isEmpty then ([] : List α) else l).length = l.length := by
  cases l <;> simp

/-- C1 (amended): with at least one combinatorial slot, createPeerPermutations
returns exactly the product, over the slots whose compatible-version list is
nonempty, of that list's length (slots with zero compatible versions are
dropped from the product instead of zeroing it); when every slot has at least
one compatible version this is the product over all slots, as the original
claim states; and every returned permutation assigns one common version value
to all members of each sameVersionRequired slot. -/
theorem createPeerPermutations_spec (cfg : CDNMapping)
    (av : List (String × List String)) (sat : String → String → Bool)
    (peerDeps : List (String × String)) (cur : Option String)
    (hvalid : validPeerDepsOf cfg peerDeps cur ≠ []) :
    ((createPeerPermutations cfg av sat peerDeps cur).length =
      (((groupSlotVersions cfg av sat peerDeps cur ++
          indepSlotVersions cfg av sat peerDeps cur).filter
            (fun l => !l.isEmpty)).map List.length).prod) ∧
    ((∀ s ∈ groupSlotVersions cfg av sat peerDeps cur ++
        indepSlotVersions cfg av sat peerDeps cur, s ≠ []) →
      (createPeerPermutations cfg av sat peerDeps cur).length =
        ((groupSlotVersions cfg av sat peerDeps cur ++
          indepSlotVersions cfg av sat peerDeps cur).map List.length).prod) ∧
    (∀ pc ∈ createPeerPermutations cfg av sat peerDeps cur,
      ∀ g ∈ (peerSlots cfg peerDeps cur).1, ∀ m ∈ g, ∀ m2 ∈ g,
        jsGet pc m = jsGet pc m2) := by
  have hcond : (validPeerDepsOf cfg peerDeps cur).isEmpty ≠ true := by
    cases h : validPeerDepsOf cfg peerDeps cur with
    | nil => exact absurd h hvalid
    | cons a t => simp
  have hres : createPeerPermutations cfg av sat peerDeps cur =
      (let perms := (generateCartesianProduct
        ((groupSlotVersions cfg av sat peerDeps cur).filter
            (fun l => !l.isEmpty) ++
         (indepSlotVersions cfg av sat peerDeps cur).filter
            (fun l => !l.isEmpty))).map (fun combo =>
        assignIndependentVersions combo
          (peerSlots cfg peerDeps cur).1.length
          (peerSlots cfg peerDeps cur).2
          (assignGroupVersions combo 0 (peerSlots cfg peerDeps cur).1 []))
       if perms.isEmpty then [] else perms) := by
    simp only [createPeerPermutations]
    rw [if_neg hcond]
  have hlen : (createPeerPermutations cfg av sat peerDeps cur).length =
      (((groupSlotVersions cfg av sat peerDeps cur ++
          indepSlotVersions cfg av sat peerDeps cur).filter
            (fun l => !l.isEmpty)).map List.length).prod := by
    rw [hres, length_ite_isEmpty, List.length_map,
      length_generateCartesianProduct, List.filter_append]
  refine ⟨hlen, ?_, ?_⟩
  · intro hall
    rw [hlen]
    congr 1
    congr 1
    rw [List.filter_eq_self]
    intro s hs
    have := hall s hs
    cases s with
    | nil => exact absurd rfl this
    | cons a t => simp
  · intro pc hpc g hg m hm m2 hm2
    rw [hres] at hpc
    simp only at hpc
    have hpc2 : pc ∈ (generateCartesianProduct
        ((groupSlotVersions cfg av sat peerDeps cur).filter
            (fun l => !l.isEmpty) ++
         (indepSlotVersions cfg av sat peerDeps cur).filter
            (fun l => !l.isEmpty))).map (fun combo =>
        assignIndependentVersions combo
          (peerSlots cfg peerDeps cur).1.length
          (peerSlots cfg peerDeps cur).2
          (assignGroupVersions combo 0 (peerSlots cfg peerDeps cur).1 [])) := by
      by_cases he : ((generateCartesianProduct
        ((groupSlotVersions cfg av sat peerDeps cur).filter
            (fun l => !l.isEmpty) ++
         (indepSlotVersions cfg av sat peerDeps cur).filter
            (fun l => !l.isEmpty))).map (fun combo =>
        assignIndependentVersions combo
          (peerSlots cfg peerDeps cur).1.length
          (peerSlots cfg peerDeps cur).2
          (assignGroupVersions combo 0
            (peerSlots cfg peerDeps cur).1 []))).isEmpty
      · rw [if_pos he] at hpc; simp at hpc
      · rwa [if_neg he] at hpc
    rcases List.mem_map.mp hpc2 with ⟨combo, _, rfl⟩
    have hinv := groupPartition_inv cfg.sameVersionRequired
      ((validPeerDepsOf cfg peerDeps cur).map (·.1))
      (fun n => jsGet (validPeerDepsOf cfg peerDeps cur) n)
    have hinv2 : PartInv cfg.sameVersionRequired (peerSlots cfg peerDeps cur) := by
      unfold peerSlots; exact hinv
    rcases hinv2.sub g hg with ⟨G, hG, hsubG⟩
    have hnotind : ∀ x, x ∈ g → x ∉ (peerSlots cfg peerDeps cur).2 := by
      intro x hx hxind
      exact hinv2.ind x hxind G hG (hsubG x hx)
    rcases List.mem_iff_get?.mp hg with ⟨j, hj⟩
    have h1 : jsGet (assignIndependentVersions combo
        (peerSlots cfg peerDeps cur).1.length (peerSlots cfg peerDeps cur).2
        (assignGroupVersions combo 0 (peerSlots cfg peerDeps cur).1 [])) m
        = some (combo.get? (0 + j)) := by
      rw [jsGet_assignIndependentVersions_notmem _ _ _ _ _ (hnotind m hm)]
      exact jsGet_assignGroupVersions_mem combo _ 0 [] m j g hj hm hinv2.disj
    have h2 : jsGet (assignIndependentVersions combo
        (peerSlots cfg peerDeps cur).1.length (peerSlots cfg peerDeps cur).2
        (assignGroupVersions combo 0 (peerSlots cfg peerDeps cur).1 [])) m2
        = some (combo.get? (0 + j)) := by
      rw [jsGet_assignIndependentVersions_notmem _ _ _ _ _ (hnotind m2 hm2)]
      exact jsGet_assignGroupVersions_mem combo _ 0 [] m2 j g hj hm2 hinv2.disj
    rw [h1, h2]

/-- Concrete configuration for the permutation-engine scenarios: two managed
packages, no sameVersionRequired groups. -/
def cfgAB : CDNMapping := ⟨[("lib-a", ""), ("lib-b", "")], []⟩

/-- Catalog in which lib-b has no available versions. -/
def avEmpty : List (String × List String) := [("lib-b", [])]

/-- Catalog in which lib-b is available at 1.1.0 and 1.0.0 (registry order,
most recent first). -/
def avB2 : List (String × List String) := [("lib-b", ["1.1.0", "1.0.0"])]

/-- Semver-satisfies oracle that accepts everything; with an empty catalog the
compatible list is empty regardless. -/
def satAll : String → String → Bool := fun _ _ => true

/-- C1 counterexample: lib-a has the single peer slot lib-b with zero
compatible versions, so the claim demands zero permutations, but
createPeerPermutations returns one permutation, assigning lib-b an undefined
version. -/
theorem createPeerPermutations_zero_slot_counterexample :
    (groupSlotVersions cfgAB avEmpty satAll [("lib-b", "^1.0.0")]
        (some "lib-a") ++
      indepSlotVersions cfgAB avEmpty satAll [("lib-b", "^1.0.0")]
        (some "lib-a")) = [[]] ∧
    createPeerPermutations cfgAB avEmpty satAll [("lib-b", "^1.0.0")]
      (some "lib-a") = [[("lib-b", none)]] ∧
    calculatePermutationCount cfgAB avEmpty satAll [("lib-b", "^1.0.0")]
      (some "lib-a") = 0 := by
  refine ⟨?_, ?_, ?_⟩ <;> rfl

/-- C1 witness: the amended theorem applied to the concrete lib-a / lib-b
catalog with two compatible lib-b versions. -/
theorem createPeerPermutations_spec_witness :
    validPeerDepsOf cfgAB [("lib-b", "^1.0.0")] (some "lib-a") ≠ [] ∧
    ((createPeerPermutations cfgAB avB2 satAll [("lib-b", "^1.0.0")]
        (some "lib-a")).length =
      (((groupSlotVersions cfgAB avB2 satAll [("lib-b", "^1.0.0")]
            (some "lib-a") ++
          indepSlotVersions cfgAB avB2 satAll [("lib-b", "^1.0.0")]
            (some "lib-a")).filter
              (fun l => !l.isEmpty)).map List.length).prod) ∧
    (createPeerPermutations cfgAB avB2 satAll [("lib-b", "^1.0.0")]
        (some "lib-a")).length = 2 :=
  ⟨by decide,
   (createPeerPermutations_spec cfgAB avB2 satAll [("lib-b", "^1.0.0")]
      (some "lib-a") (by decide)).1,
   by rfl⟩

/-! ## Dependency Graph Builder: sortDependenciesByDepth (C2) -/

/-- Array.prototype.join with an underscore separator. -/
def joinUnderscore : List String → String
  | [] => ""
  | [p] => p
  | p :: ps => p ++ "_" ++ joinUnderscore ps

/-- Key used by the depth map of sortDependenciesByDepth: name@version plus,
whenever peerContext is present (even empty, since an empty object is
JS-truthy), an underscore and the unsorted n-v peer entries joined by
underscores. -/
def depthKey (dep : AnalyzedDependency) : String :=
  dep.name ++ "@" ++ dep.version ++
    (match dep.peerContext with
     | none => ""
     | some pc =>
       "_" ++ joinUnderscore (pc.map (fun e => e.1 ++ "-" ++ jsShow e.2)))

/-- JS truthiness-and-emptiness test
(!dep.peerContext or zero keys). -/
def ctxEmptyJs (o : Option (List (String × Option String))) : Bool :=
  o.elim true (fun pc => pc.isEmpty)

/-- One iteration of the first pass of sortDependenciesByDepth: record depth 0
for a unit without (or with empty) peer context, otherwise one plus the
maximum of the peers' zero-context depths recorded so far (missing lookups
default to 0). -/
def depthStep (m : List (String × Nat)) (dep : AnalyzedDependency) :
    List (String × Nat) :=
  if ctxEmptyJs dep.peerContext then jsSet m (depthKey dep) 0
  else
    jsSet m (depthKey dep)
      (((dep.peerContext.getD []).foldl (fun mx e =>
        max mx ((jsGet m (e.1 ++ "@" ++ jsShow e.2)).getD 0)) 0) + 1)

/-- First pass of sortDependenciesByDepth over the dependency list. -/
def depthMapOf (deps : List AnalyzedDependency) : List (String × Nat) :=
  deps.foldl depthStep []

/-- Lexicographic code-point comparison of character lists: the deterministic
ordering used to model String.prototype.localeCompare and the default
Array.prototype.sort string order. -/
def strLe : List Char → List Char → Bool
  | [], _ => true
  | _ :: _, [] => false
  | c :: cs, d :: ds =>
    if c.toNat = d.toNat then strLe cs ds else decide (c.toNat < d.toNat)

theorem strLe_trans : ∀ a b c : List Char,
    strLe a b = true → strLe b c = true → strLe a c = true
  | [], _, _, _, _ => rfl
  | x :: xs, [], _, h1, _ => by simp [strLe] at h1
  | x :: xs, y :: ys, [], _, h2 => by simp [strLe] at h2
  | x :: xs, y :: ys, z :: zs, h1, h2 => by
    simp only [strLe] at h1 h2 ⊢
    by_cases hxy : x.toNat = y.toNat
    · rw [if_pos hxy] at h1
      by_cases hyz : y.toNat = z.toNat
      · rw [if_pos hyz] at h2
        rw [if_pos (hxy.trans hyz)]
        exact strLe_trans xs ys zs h1 h2
      · rw [if_neg hyz] at h2
        have hlt : y.toNat < z.toNat := by simpa using h2
        rw [if_neg (by omega)]
        simp
        omega
    · rw [if_neg hxy] at h1
      have hlt : x.toNat < y.toNat := by simpa using h1
      by_cases hyz : y.toNat = z.toNat
      · rw [if_neg (by omega)]
        simp
        omega
      · rw [if_neg hyz] at h2
        have hlt2 : y.toNat < z.toNat := by simpa using h2
        rw [if_neg (by omega)]
        simp
        omega

theorem strLe_total : ∀ a b : List Char, (strLe a b || strLe b a) = true
  | [], _ => by simp [strLe]
  | _ :: _, [] => by simp [strLe]
  | x :: xs, y :: ys => by
    simp only [strLe]
    by_cases hxy : x.toNat = y.toNat
    · rw [if_pos hxy, if_pos hxy.symm]
      exact strLe_total xs ys
    · rw [if_neg hxy, if_neg (fun h => hxy h.symm)]
      simp
      omega

/-- Sort comparator of sortDependenciesByDepth as a boolean less-or-equal:
ascending depth, ties broken by name (localeCompare modelled as code-point
order). -/
def depLe (a b : AnalyzedDependency) : Bool :=
  if a.depth ≠ b.depth then a.depth < b.depth
  else strLe a.name.data b.name.data

/-- Stable insertion into a sorted list: the new element goes in front of the
first element it compares less-or-equal to, so earlier elements win ties. -/
def stableInsert (le : α → α → Bool) (a : α) : List α → List α
  | [] => [a]
  | b :: t => if le a b then a :: b :: t else b :: stableInsert le a t

/-- Stable insertion sort.  Array.prototype.sort is required by ES2019 to be
stable, and a stable sort for a comparator that is a total preorder has a
unique result, so this structurally recursive reference implementation is
extensionally the engine's sort. -/
def stableSort (le : α → α → Bool) : List α → List α
  | [] => []
  | a :: t => stableInsert le a (stableSort le t)

/-- DependencyAnalyzer.sortDependenciesByDepth (analyze-dependencies.ts
lines 461-519): compute the depth map in one pass, write the depths back,
and stable-sort by (depth, name). -/
def sortDependenciesByDepth (deps : List AnalyzedDependency) :
    List AnalyzedDependency :=
  let depthMap := depthMapOf deps
  let updated := deps.map (fun dep =>
    { dep with depth := (jsGet depthMap (depthKey dep)).getD 0 })
  stableSort depLe updated

/-- Component without an underscore character. -/
def underscoreFree (s : String) : Bool := s.data.all (fun c => c ≠ '_')

/-- Well-formedness bound for C2: names, versions and peer-context entries
contain no underscore, so distinct key classes of the depth map cannot
collide (an underscore inside a component would let a context-qualified key
alias a peer-lookup key and corrupt the computed depths). -/
def cleanDep (dep : AnalyzedDependency) : Bool :=
  underscoreFree dep.name && underscoreFree dep.version &&
    dep.peerContext.elim true (fun pc =>
      pc.all (fun e => underscoreFree e.1 && underscoreFree (jsShow e.2)))

/-- Key shape produced only by units with a nonempty peer context (given
clean components): it contains an underscore and its first underscore is
followed by at least one character. -/
def ctxShapedKey (k : String) : Bool :=
  !(underscoreFree k) &&
    !((k.data.dropWhile (fun c => c ≠ '_')).drop 1).isEmpty

theorem mem_jsSet (m : List (String × α)) (k : String) (v : α)
    (e : String × α) (h : e ∈ jsSet m k v) : e = (k, v) ∨ e ∈ m := by
  induction m with
  | nil => simp [jsSet] at h; exact Or.inl h
  | cons a t ih =>
    by_cases ha : a.1 = k
    · simp only [jsSet, ha, if_true] at h
      rcases List.mem_cons.mp h with h1 | h1
      · exact Or.inl h1
      · exact Or.inr (List.mem_cons_of_mem _ h1)
    · simp only [jsSet, ha, if_false] at h
      rcases List.mem_cons.mp h with h1 | h1
      · exact Or.inr (h1 ▸ List.mem_cons_self _ _)
      · rcases ih h1 with h2 | h2
        · exact Or.inl h2
        · exact Or.inr (List.mem_cons_of_mem _ h2)

theorem jsGet_mem_entry (m : List (String × α)) (k : String) (v : α)
    (h : jsGet m k = some v) : (k, v) ∈ m := by
  induction m with
  | nil => simp [jsGet] at h
  | cons e t ih =>
    by_cases he : e.1 = k
    · simp only [jsGet, he, if_true, Option.some.injEq] at h
      have he2 : e = (k, v) := by
        cases e with
        | mk a b =>
          simp only at he h
          rw [he, h]
      exact he2 ▸ List.mem_cons_self _ _
    · simp only [jsGet, he, if_false] at h
      exact List.mem_cons_of_mem _ (ih h)

theorem isSome_jsGet_jsSet (m : List (String × α)) (k : String) (v : α)
    (x : String) (h : (jsGet m x).isSome) :
    (jsGet (jsSet m k v) x).isSome := by
  by_cases hx : x = k
  · subst hx; rw [jsGet_jsSet_self]; rfl
  · rw [jsGet_jsSet_other _ _ _ _ hx]; exact h

theorem string_data_append (s t : String) : (s ++ t).data = s.data ++ t.data :=
  rfl

theorem underscoreFree_append (s t : String) :
    underscoreFree (s ++ t) = (underscoreFree s && underscoreFree t) := by
  simp [underscoreFree, string_data_append, List.all_append]

theorem dropWhile_append_of_all (p : Char → Bool) (a b : List Char)
    (ha : ∀ c ∈ a, p c = true) :
    (a ++ b).dropWhile p = b.dropWhile p := by
  induction a with
  | nil => simp
  | cons c t ih =>
    have hc : p c = true := ha c (List.mem_cons_self _ _)
    simp only [List.cons_append, List.dropWhile_cons, hc, if_true]
    exact ih (fun c2 hc2 => ha c2 (List.mem_cons_of_mem _ hc2))

theorem joinUnderscore_cons_data (p : String) (ps : List String) :
    ∃ t, (joinUnderscore (p :: ps)).data = p.data ++ t := by
  cases ps with
  | nil => exact ⟨[], by simp [joinUnderscore]⟩
  | cons q qs =>
    refine ⟨('_' :: (joinUnderscore (q :: qs)).data), ?_⟩
    show ((p ++ "_") ++ joinUnderscore (q :: qs)).data = _
    rw [string_data_append, string_data_append]
    simp

/-- Characters of the name@version base of a clean unit are not underscores. -/
theorem base_underscoreFree (dep : AnalyzedDependency)
    (hclean : cleanDep dep = true) :
    ∀ c ∈ (dep.name ++ "@" ++ dep.version).data, (c ≠ '_' : Bool) = true := by
  have hc0 := hclean
  simp only [cleanDep, Bool.and_eq_true] at hc0
  have h1 : underscoreFree dep.name = true := hc0.1.1
  have h2 : underscoreFree dep.version = true := hc0.1.2
  intro c hc
  rw [string_data_append, string_data_append] at hc
  rcases List.mem_append.mp hc with hc2 | hc2
  · rcases List.mem_append.mp hc2 with hc3 | hc3
    · exact List.all_eq_true.mp h1 c hc3
    · have hc4 : c = '@' := by simpa using hc3
      subst hc4; decide
  · exact List.all_eq_true.mp h2 c hc2

/-- Depth-map key of a clean unit whose peer context is absent or empty is
never context-shaped. -/
theorem ctxShapedKey_of_empty (dep : AnalyzedDependency)
    (hclean : cleanDep dep = true) (hpc : ctxEmptyJs dep.peerContext = true) :
    ctxShapedKey (depthKey dep) = false := by
  have hts : ctxShapedKey (depthKey dep) =
      (!(underscoreFree (depthKey dep)) &&
        !(((depthKey dep).data.dropWhile (fun c => c ≠ '_')).drop 1).isEmpty) :=
    rfl
  cases hpco : dep.peerContext with
  | none =>
    have hk : depthKey dep = dep.name ++ "@" ++ dep.version ++ "" := by
      simp [depthKey, hpco]
    have huf : underscoreFree (depthKey dep) = true := by
      rw [hk, underscoreFree_append]
      have h3 : underscoreFree (dep.name ++ "@" ++ dep.version) = true :=
        List.all_eq_true.mpr (base_underscoreFree dep hclean)
      rw [h3]
      decide
    rw [hts, huf]
    rfl
  | some pc =>
    cases pc with
    | nil =>
      have hk : depthKey dep = dep.name ++ "@" ++ dep.version ++ "_" := by
        simp [depthKey, hpco, joinUnderscore]
      have hdrop : ((depthKey dep).data.dropWhile (fun c => c ≠ '_')) = ['_'] := by
        rw [hk]
        show (((dep.name ++ "@" ++ dep.version).data ++ ['_']).dropWhile
          (fun c => c ≠ '_')) = ['_']
        rw [dropWhile_append_of_all _ _ _ (base_underscoreFree dep hclean)]
        decide
      rw [hts, hdrop]
      simp
    | cons e rest =>
      rw [hpco] at hpc
      simp [ctxEmptyJs] at hpc

/-- Depth-map key of a clean unit with a nonempty peer context is
context-shaped. -/
theorem ctxShapedKey_of_ctx (dep : AnalyzedDependency)
    (hclean : cleanDep dep = true)
    (hpc : ¬ ctxEmptyJs dep.peerContext = true) :
    ctxShapedKey (depthKey dep) = true := by
  cases hpco : dep.peerContext with
  | none => rw [hpco] at hpc; simp [ctxEmptyJs] at hpc
  | some pc =>
    cases pc with
    | nil => rw [hpco] at hpc; simp [ctxEmptyJs] at hpc
    | cons e rest =>
      have hk : depthKey dep = dep.name ++ "@" ++ dep.version ++
          ("_" ++ joinUnderscore (((e :: rest) : List (String × Option String)).map
            (fun x => x.1 ++ "-" ++ jsShow x.2))) := by
        simp [depthKey, hpco]
      rcases joinUnderscore_cons_data (e.1 ++ "-" ++ jsShow e.2)
        ((rest : List (String × Option String)).map
          (fun x => x.1 ++ "-" ++ jsShow x.2)) with ⟨t, hjoin⟩
      have hdata : (depthKey dep).data =
          (dep.name ++ "@" ++ dep.version).data ++
            ('_' :: ((e.1 ++ "-" ++ jsShow e.2).data ++ t)) := by
        rw [hk]
        rw [string_data_append]
        congr 1
        rw [string_data_append]
        simp only [List.map_cons]
        rw [hjoin]
        rfl
      have hmem : '_' ∈ (depthKey dep).data := by
        rw [hdata]
        exact List.mem_append.mpr (Or.inr (List.mem_cons_self _ _))
      have huf : underscoreFree (depthKey dep) = false := by
        rcases h : underscoreFree (depthKey dep) with _ | _
        · rfl
        · have := List.all_eq_true.mp h '_' hmem
          simp at this
      have hdrop : ((depthKey dep).data.dropWhile (fun c => c ≠ '_')) =
          '_' :: ((e.1 ++ "-" ++ jsShow e.2).data ++ t) := by
        rw [hdata, dropWhile_append_of_all _ _ _ (base_underscoreFree dep hclean)]
        simp [List.dropWhile_cons]
      have hne : ((e.1 ++ "-" ++ jsShow e.2).data ++ t) ≠ [] := by
        rw [string_data_append, string_data_append]
        simp
      have hts : ctxShapedKey (depthKey dep) =
          (!(underscoreFree (depthKey dep)) &&
            !(((depthKey dep).data.dropWhile
                (fun c => c ≠ '_')).drop 1).isEmpty) := rfl
      rw [hts, huf, hdrop]
      simp only [List.drop_succ_cons, List.drop_zero, Bool.not_false,
        Bool.true_and]
      cases h2 : ((e.1 ++ "-" ++ jsShow e.2).data ++ t) with
      | nil => exact absurd h2 hne
      | cons c cs => rfl

/-- Invariant of the depth map: entries at context-shaped keys hold 1, all
others hold 0. -/
def depthMapInv (m : List (String × Nat)) : Prop :=
  ∀ e ∈ m, e.2 = if ctxShapedKey e.1 then 1 else 0

theorem jsGet_of_depthMapInv (m : List (String × Nat)) (hm : depthMapInv m)
    (k : String) (v : Nat) (h : jsGet m k = some v) :
    v = if ctxShapedKey k then 1 else 0 :=
  hm (k, v) (jsGet_mem_entry m k v h)

theorem foldl_max_eq_acc (l : List β) (f : β → Nat)
    (hf : ∀ e ∈ l, f e = 0) :
    ∀ acc, l.foldl (fun mx e => max mx (f e)) acc = acc := by
  induction l with
  | nil => intro acc; rfl
  | cons e t ih =>
    intro acc
    simp only [List.foldl_cons]
    rw [hf e (List.mem_cons_self _ _)]
    have h2 := ih (fun e2 he2 => hf e2 (List.mem_cons_of_mem _ he2)) acc
    simpa using h2

theorem depthMapInv_step (m : List (String × Nat)) (dep : AnalyzedDependency)
    (hm : depthMapInv m) (hd : cleanDep dep = true) :
    depthMapInv (depthStep m dep) := by
  unfold depthStep
  split
  · next hempty =>
    intro e he
    rcases mem_jsSet _ _ _ _ he with h1 | h1
    · subst h1
      rw [ctxShapedKey_of_empty dep hd hempty]
      rfl
    · exact hm e h1
  · next hempty =>
    have hlooks : ∀ e2 ∈ dep.peerContext.getD [],
        ((jsGet m (e2.1 ++ "@" ++ jsShow e2.2)).getD 0) = 0 := by
      intro e2 he2
      cases hg : jsGet m (e2.1 ++ "@" ++ jsShow e2.2) with
      | none => rfl
      | some v =>
        have hv := jsGet_of_depthMapInv m hm _ v hg
        have hufk : underscoreFree (e2.1 ++ "@" ++ jsShow e2.2) = true := by
          have hc0 := hd
          simp only [cleanDep, Bool.and_eq_true] at hc0
          have hpc := hc0.2
          cases hpco : dep.peerContext with
          | none => rw [hpco] at hempty; simp [ctxEmptyJs] at hempty
          | some pc =>
            rw [hpco] at hpc
            simp only [Option.elim] at hpc
            rw [hpco] at he2
            simp only [Option.getD] at he2
            have := List.all_eq_true.mp hpc e2 he2
            simp only [Bool.and_eq_true] at this
            rw [underscoreFree_append, underscoreFree_append, this.1, this.2]
            decide
        have hshape : ctxShapedKey (e2.1 ++ "@" ++ jsShow e2.2) = false := by
          unfold ctxShapedKey
          rw [hufk]
          rfl
        rw [hv, hshape]
        rfl
    rw [foldl_max_eq_acc _ _ hlooks 0]
    intro e he
    rcases mem_jsSet _ _ _ _ he with h1 | h1
    · subst h1
      simp [ctxShapedKey_of_ctx dep hd hempty]
    · exact hm e h1

theorem depthMapInv_foldl (rest : List AnalyzedDependency)
    (hclean : ∀ d ∈ rest, cleanDep d = true) :
    ∀ m, depthMapInv m → depthMapInv (rest.foldl depthStep m) := by
  induction rest with
  | nil => intro m hm; exact hm
  | cons d t ih =>
    intro m hm
    simp only [List.foldl_cons]
    exact ih (fun d2 hd2 => hclean d2 (List.mem_cons_of_mem _ hd2)) _
      (depthMapInv_step m d hm (hclean d (List.mem_cons_self _ _)))

theorem depthMapInv_depthMapOf (deps : List AnalyzedDependency)
    (hclean : ∀ d ∈ deps, cleanDep d = true) :
    depthMapInv (depthMapOf deps) :=
  depthMapInv_foldl deps hclean [] (by intro e he; simp at he)

theorem isSome_foldl_depthStep (rest : List AnalyzedDependency) (x : String) :
    ∀ m, (jsGet m x).isSome →
      (jsGet (rest.foldl depthStep m) x).isSome := by
  induction rest with
  | nil => intro m hm; exact hm
  | cons d t ih =>
    intro m hm
    simp only [List.foldl_cons]
    apply ih
    unfold depthStep
    split
    · exact isSome_jsGet_jsSet _ _ _ _ hm
    · exact isSome_jsGet_jsSet _ _ _ _ hm

theorem isSome_jsGet_foldl_mem (rest : List AnalyzedDependency)
    (dep : AnalyzedDependency) (hmem : dep ∈ rest) :
    ∀ m, (jsGet (rest.foldl depthStep m) (depthKey dep)).isSome := by
  induction rest with
  | nil => simp at hmem
  | cons d t ih =>
    intro m
    simp only [List.foldl_cons]
    rcases List.mem_cons.mp hmem with h1 | h1
    · subst h1
      apply isSome_foldl_depthStep
      unfold depthStep
      split
      · rw [jsGet_jsSet_self]; rfl
      · rw [jsGet_jsSet_self]; rfl
    · exact ih h1 _

theorem isSome_jsGet_depthMapOf (deps : List AnalyzedDependency)
    (dep : AnalyzedDependency) (hmem : dep ∈ deps) :
    (jsGet (depthMapOf deps) (depthKey dep)).isSome :=
  isSome_jsGet_foldl_mem deps dep hmem []

theorem stableInsert_perm (le : α → α → Bool) (a : α) (l : List α) :
    (stableInsert le a l).Perm (a :: l) := by
  induction l with
  | nil => exact List.Perm.refl _
  | cons b t ih =>
    unfold stableInsert
    split
    · exact List.Perm.refl _
    · exact ((ih.cons b).trans (List.Perm.swap a b t))

theorem stableSort_perm (le : α → α → Bool) (l : List α) :
    (stableSort le l).Perm l := by
  induction l with
  | nil => exact List.Perm.refl _
  | cons a t ih =>
    unfold stableSort
    exact (stableInsert_perm le a (stableSort le t)).trans (ih.cons a)

theorem mem_stableInsert (le : α → α → Bool) (a x : α) (l : List α)
    (h : x ∈ stableInsert le a l) : x = a ∨ x ∈ l :=
  List.mem_cons.mp ((stableInsert_perm le a l).mem_iff.mp h)

theorem pairwise_stableInsert (le : α → α → Bool)
    (htrans : ∀ a b c, le a b = true → le b c = true → le a c = true)
    (htot : ∀ a b, (le a b || le b a) = true) (a : α) (l : List α)
    (hl : List.Pairwise (fun x y => le x y = true) l) :
    List.Pairwise (fun x y => le x y = true) (stableInsert le a l) := by
  induction l with
  | nil => simp [stableInsert]
  | cons b t ih =>
    unfold stableInsert
    split
    · next hab =>
      refine List.Pairwise.cons ?_ hl
      intro y hy
      rcases List.mem_cons.mp hy with h1 | h1
      · subst h1; exact hab
      · exact htrans a b y hab ((List.pairwise_cons.mp hl).1 y h1)
    · next hab =>
      have hba : le b a = true := by
        have h2 := htot a b
        cases h3 : le a b with
        | true => exact absurd h3 hab
        | false =>
          rw [h3] at h2
          simpa using h2
      refine List.Pairwise.cons ?_ (ih (List.pairwise_cons.mp hl).2)
      intro y hy
      rcases mem_stableInsert le a y _ hy with h1 | h1
      · subst h1; exact hba
      · exact (List.pairwise_cons.mp hl).1 y h1

theorem pairwise_stableSort (le : α → α → Bool)
    (htrans : ∀ a b c, le a b = true → le b c = true → le a c = true)
    (htot : ∀ a b, (le a b || le b a) = true) (l : List α) :
    List.Pairwise (fun x y => le x y = true) (stableSort le l) := by
  induction l with
  | nil => exact List.Pairwise.nil
  | cons a t ih =>
    unfold stableSort
    exact pairwise_stableInsert le htrans htot a _ ih

theorem depLe_eq_true_iff (a b : AnalyzedDependency) :
    depLe a b = true ↔
      (a.depth < b.depth ∨
        (a.depth = b.depth ∧ strLe a.name.data b.name.data = true)) := by
  unfold depLe
  by_cases h : a.depth = b.depth
  · simp [h]
  · rw [if_pos h]
    simp only [decide_eq_true_eq]
    constructor
    · intro h2; exact Or.inl h2
    · intro h2
      rcases h2 with h2 | h2
      · exact h2
      · exact absurd h2.1 h

theorem depLe_trans (a b c : AnalyzedDependency) (h1 : depLe a b = true)
    (h2 : depLe b c = true) : depLe a c = true := by
  rw [depLe_eq_true_iff] at h1 h2 ⊢
  rcases h1 with h1 | h1 <;> rcases h2 with h2 | h2
  · exact Or.inl (Nat.lt_trans h1 h2)
  · exact Or.inl (h2.1 ▸ h1)
  · exact Or.inl (h1.1 ▸ h2)
  · exact Or.inr ⟨h1.1.trans h2.1, strLe_trans _ _ _ h1.2 h2.2⟩

theorem depLe_total (a b : AnalyzedDependency) :
    (depLe a b || depLe b a) = true := by
  rw [Bool.or_eq_true, depLe_eq_true_iff, depLe_eq_true_iff]
  rcases Nat.lt_trichotomy a.depth b.depth with h | h | h
  · exact Or.inl (Or.inl h)
  · have ht : strLe a.name.data b.name.data = true ∨
        strLe b.name.data a.name.data = true := by
      simpa using strLe_total a.name.data b.name.data
    rcases ht with h2 | h2
    · exact Or.inl (Or.inr ⟨h, h2⟩)
    · exact Or.inr (Or.inr ⟨h.symm, h2⟩)
  · exact Or.inr (Or.inl h)

/-- Depth computed by sortDependenciesByDepth is 0 for units without (or with
empty) peer context and 1 for all others, given clean components. -/
theorem sortDependenciesByDepth_depth_char (deps : List AnalyzedDependency)
    (hclean : ∀ d ∈ deps, cleanDep d = true) :
    ∀ u ∈ sortDependenciesByDepth deps,
      u.depth = if ctxEmptyJs u.peerContext then 0 else 1 := by
  intro u hu
  unfold sortDependenciesByDepth at hu
  rw [(stableSort_perm depLe _).mem_iff] at hu
  rcases List.mem_map.mp hu with ⟨dep, hdep, rfl⟩
  have hcd := hclean dep hdep
  show (jsGet (depthMapOf deps) (depthKey dep)).getD 0 = _
  have hinv := depthMapInv_depthMapOf deps hclean
  by_cases hco : ctxEmptyJs dep.peerContext = true
  · rw [if_pos hco]
    cases hg : jsGet (depthMapOf deps) (depthKey dep) with
    | none => rfl
    | some v =>
      have hv := jsGet_of_depthMapInv _ hinv _ _ hg
      rw [ctxShapedKey_of_empty dep hcd hco] at hv
      simpa using hv
  · rw [if_neg hco]
    have hsome := isSome_jsGet_depthMapOf deps dep hdep
    cases hg : jsGet (depthMapOf deps) (depthKey dep) with
    | none => rw [hg] at hsome; simp at hsome
    | some v =>
      have hv := jsGet_of_depthMapInv _ hinv _ _ hg
      rw [ctxShapedKey_of_ctx dep hcd hco] at hv
      simpa using hv

/-- Depth of the first zero-peer-context entry for a given peer name and
version, 0 when no such entry exists (matching the depth map's default). -/
def zeroCtxDepthOf (out : List AnalyzedDependency) (p v : String) : Nat :=
  ((out.find? (fun w => w.name == p && w.version == v &&
      ctxEmptyJs w.peerContext)).map (·.depth)).getD 0

theorem zeroCtxDepthOf_eq_zero (deps : List AnalyzedDependency)
    (hclean : ∀ d ∈ deps, cleanDep d = true) (p v : String) :
    zeroCtxDepthOf (sortDependenciesByDepth deps) p v = 0 := by
  unfold zeroCtxDepthOf
  cases hf : (sortDependenciesByDepth deps).find? (fun w =>
      w.name == p && w.version == v && ctxEmptyJs w.peerContext) with
  | none => rfl
  | some w =>
    have hwmem := List.mem_of_find?_eq_some hf
    have hwp := List.find?_some hf
    simp only [Bool.and_eq_true] at hwp
    have hwdep := sortDependenciesByDepth_depth_char deps hclean w hwmem
    simp only [Option.map_some', Option.getD_some]
    rw [hwdep, if_pos hwp.2]

/-- w is the zero-peer-context entry of one of the peers named in the peer
context of u. -/
def referencesPeer (u w : AnalyzedDependency) : Prop :=
  ctxEmptyJs w.peerContext = true ∧
    (u.peerContext.getD []).any (fun e =>
      e.1 == w.name && jsShow e.2 == w.version) = true

/-- C2: in the output of sortDependenciesByDepth over units whose names,
versions and peer entries are underscore-free, each unit's depth is 0 when
its peerContext is absent or empty, and otherwise one plus the maximum of
the depths of the zero-peer-context entries of the peers it names (those
depths are all 0); and the resulting order is topological: no unit appears
before a zero-peer-context entry of a peer referenced in its peerContext. -/
theorem sortDependenciesByDepth_spec (deps : List AnalyzedDependency)
    (hclean : ∀ d ∈ deps, cleanDep d = true) :
    (∀ u ∈ sortDependenciesByDepth deps,
      u.depth = (match u.peerContext with
        | none => 0
        | some pc =>
          if pc.isEmpty then 0
          else 1 + pc.foldl (fun mx e =>
            max mx (zeroCtxDepthOf (sortDependenciesByDepth deps) e.1
              (jsShow e.2))) 0)) ∧
    (∀ i j : Nat, ∀ hi : i < (sortDependenciesByDepth deps).length,
      ∀ hj : j < (sortDependenciesByDepth deps).length, i < j →
        ¬ referencesPeer ((sortDependenciesByDepth deps).get ⟨i, hi⟩)
            ((sortDependenciesByDepth deps).get ⟨j, hj⟩)) := by
  have hchar := sortDependenciesByDepth_depth_char deps hclean
  constructor
  · intro u hu
    have hd := hchar u hu
    cases hpc : u.peerContext with
    | none =>
      rw [hpc] at hd
      simpa [ctxEmptyJs] using hd
    | some pc =>
      cases pc with
      | nil =>
        rw [hpc] at hd
        simpa [ctxEmptyJs] using hd
      | cons e rest =>
        rw [hpc] at hd
        simp only [ctxEmptyJs, Option.elim, List.isEmpty_cons] at hd
        simp only [List.isEmpty_cons, if_false]
        rw [hd]
        have hz : ∀ e2 ∈ (e :: rest : List (String × Option String)),
            zeroCtxDepthOf (sortDependenciesByDepth deps) e2.1
              (jsShow e2.2) = 0 := by
          intro e2 _
          exact zeroCtxDepthOf_eq_zero deps hclean _ _
        rw [foldl_max_eq_acc _ _ hz 0]
  · intro i j hi hj hij href
    have hsorted : List.Pairwise (fun x y => depLe x y = true)
        (sortDependenciesByDepth deps) := by
      unfold sortDependenciesByDepth
      exact pairwise_stableSort depLe depLe_trans depLe_total _
    have hrel := List.pairwise_iff_get.mp hsorted ⟨i, hi⟩ ⟨j, hj⟩ hij
    set u := (sortDependenciesByDepth deps).get ⟨i, hi⟩ with hu
    set w := (sortDependenciesByDepth deps).get ⟨j, hj⟩ with hw
    have humem : u ∈ sortDependenciesByDepth deps := List.get_mem _ _ _
    have hwmem : w ∈ sortDependenciesByDepth deps := List.get_mem _ _ _
    have hud := hchar u humem
    have hwd := hchar w hwmem
    rcases href with ⟨hwctx, hany⟩
    have huctx : ctxEmptyJs u.peerContext = false := by
      cases hpc : u.peerContext with
      | none => rw [hpc] at hany; simp at hany
      | some pc =>
        cases pc with
        | nil => rw [hpc] at hany; simp at hany
        | cons e rest => simp [ctxEmptyJs, hpc]
    rw [huctx] at hud
    rw [hwctx] at hwd
    simp at hud hwd
    rw [depLe_eq_true_iff] at hrel
    rcases hrel with h1 | h1
    · rw [hud, hwd] at h1; omega
    · rcases h1 with ⟨h1a, h1b⟩
      rw [hud, hwd] at h1a
      omega

/-- Concrete units for the C2 witness: a zero-context lib-b entry and a lib-a
unit whose peer context pins lib-b@1.0.0. -/
def depsC2 : List AnalyzedDependency :=
  [⟨"lib-a", "2.0.0", "https://esm.sh/lib-a@2.0.0?lib-b=1.0.0", false, false,
     some [("lib-b", some "1.0.0")], some [("lib-b", "^1.0.0")], 0⟩,
   ⟨"lib-b", "1.0.0", "https://esm.sh/lib-b@1.0.0", false, false, none,
     some [], 0⟩]

/-- C2 witness: the theorem applied to the concrete two-unit list, together
with the concretely evaluated sorted order (the peer lib-b comes first). -/
theorem sortDependenciesByDepth_spec_witness :
    (∀ d ∈ depsC2, cleanDep d = true) ∧
    ((sortDependenciesByDepth depsC2).map (fun u => (u.name, u.depth)) =
      [("lib-b", 0), ("lib-a", 1)]) ∧
    ((∀ u ∈ sortDependenciesByDepth depsC2,
      u.depth = (match u.peerContext with
        | none => 0
        | some pc =>
          if pc.isEmpty then 0
          else 1 + pc.foldl (fun mx e =>
            max mx (zeroCtxDepthOf (sortDependenciesByDepth depsC2) e.1
              (jsShow e.2))) 0)) ∧
    (∀ i j : Nat, ∀ hi : i < (sortDependenciesByDepth depsC2).length,
      ∀ hj : j < (sortDependenciesByDepth depsC2).length, i < j →
        ¬ referencesPeer ((sortDependenciesByDepth depsC2).get ⟨i, hi⟩)
            ((sortDependenciesByDepth depsC2).get ⟨j, hj⟩))) :=
  ⟨by decide, by decide, sortDependenciesByDepth_spec depsC2 (by decide)⟩

/-! ## Dependency Graph Builder: generation, save filter and merge (C6) -/

/-- String.prototype.replace with a plain-string pattern: replaces only the
first occurrence. -/
def replaceFirstChars (pat rep : List Char) : List Char → List Char
  | [] => if pat.isEmpty then rep else []
  | c :: t =>
    if pat.isPrefixOf (c :: t) then rep ++ (c :: t).drop pat.length
    else c :: replaceFirstChars pat rep t

/-- String.prototype.replace with a plain-string pattern. -/
def replaceFirst (s pat rep : String) : String :=
  ⟨replaceFirstChars pat.data rep.data s.data⟩

/-- Array.prototype.join with an ampersand separator. -/
def joinAmp : List String → String
  | [] => ""
  | [p] => p
  | p :: ps => p ++ "&" ++ joinAmp ps

/-- DependencyAnalyzer.getExternalPeerDependencies: drop wildcard constraints
and peers inside the package's own sameVersionRequired group. -/
def getExternalPeerDependencies (peerDependencies : List (String × String))
    (sameVersionGroup : Option (List String)) : List (String × String) :=
  peerDependencies.foldl (fun acc e =>
    if e.2 == "*" then acc
    else if sameVersionGroup.elim false (fun g => g.contains e.1) then acc
    else jsSet acc e.1 e.2) []

/-- DependencyAnalyzer.generateDependencyGraph (analyze-dependencies.ts
lines 364-432): one base entry per version without external peer
dependencies, otherwise only permutation-qualified entries. -/
def generateDependencyGraph (cfg : CDNMapping)
    (availableVersions : List (String × List String))
    (sat : String → String → Bool)
    (packageInfoCache : List (String × List PackageInfo)) :
    List AnalyzedDependency :=
  (packageInfoCache.map (fun entry =>
    let depName := entry.1
    let urlTemplate := (jsGet cfg.packages depName).getD ""
    let sameVersionGroup :=
      cfg.sameVersionRequired.find? (fun g => g.contains depName)
    (entry.2.map (fun packageInfo =>
      let url := replaceFirst urlTemplate "\x7bversion\x7d" packageInfo.version
      let externalPeerDeps :=
        getExternalPeerDependencies packageInfo.peerDependencies
          sameVersionGroup
      let hasExternalPeerDeps := !externalPeerDeps.isEmpty
      (if !hasExternalPeerDeps then
        [{ name := depName, version := packageInfo.version, url := url,
           peerDependencies := some packageInfo.peerDependencies,
           depth := 0, downloaded := false, transformed := false,
           peerContext := none }]
       else []) ++
      (if hasExternalPeerDeps then
        (createPeerPermutations cfg availableVersions sat externalPeerDeps
          (some depName)).filterMap (fun peerContext =>
          if !peerContext.isEmpty then
            some ({ name := depName, version := packageInfo.version,
                    url := url ++ "?" ++ joinAmp (peerContext.map (fun e =>
                      e.1 ++ "=" ++ jsShow e.2)),
                    downloaded := false, transformed := false,
                    peerContext := some peerContext,
                    peerDependencies := some packageInfo.peerDependencies,
                    depth := 0 } : AnalyzedDependency)
          else none)
       else []))).flatten)).flatten

/-- DependencyAnalyzer.makePackageKey: canonical key with the sorted n-v
peer-context suffix (default Array.sort, string code-point order). -/
def makePackageKey (pkg : AnalyzedDependency) : String :=
  pkg.name ++ "@" ++ pkg.version ++
    (match pkg.peerContext with
     | none => ""
     | some pc =>
       "_" ++ joinUnderscore (stableSort (fun a b => strLe a.data b.data)
         (pc.map (fun e => e.1 ++ "-" ++ jsShow e.2))))

/-- hasExternalManagedPeers test inside saveDependencyAnalysis: some declared
peer is a managed package with a non-wildcard constraint outside the
package's own sameVersionRequired group. -/
def hasExternalManagedPeers (cfg : CDNMapping)
    (dep : AnalyzedDependency) : Bool :=
  let managedPackageNames := cfg.packages.map (·.1)
  let sameVersionGroup :=
    cfg.sameVersionRequired.find? (fun g => g.contains dep.name)
  ((dep.peerDependencies.getD []).map (·.1)).any (fun peerName =>
    let isManaged := managedPackageNames.contains peerName &&
      !(((jsGet (dep.peerDependencies.getD []) peerName).getD "") == "*")
    let isInternal := sameVersionGroup.elim false (fun g =>
      g.contains peerName)
    isManaged && !isInternal)

/-- Filter of saveDependencyAnalysis (analyze-dependencies.ts lines 536-570):
keep entries with a nonempty peer context, entries with no declared peer
dependencies, and entries whose declared peers are all wildcard, unmanaged
or internal to their own group. -/
def saveFilter (cfg : CDNMapping) (dep : AnalyzedDependency) : Bool :=
  if dep.peerContext.elim false (fun pc => !pc.isEmpty) then true
  else if dep.peerDependencies.elim true (fun pd => pd.isEmpty) then true
  else !(hasExternalManagedPeers cfg dep)

/-- Packages list persisted by saveDependencyAnalysis: filtered new entries
merged with the existing analysis (replacement by canonical key, truly new
keys appended) and sorted by depth then name. -/
def saveDependencyAnalysisPackages (cfg : CDNMapping)
    (existingPackages : Option (List AnalyzedDependency))
    (newPackages : List AnalyzedDependency) : List AnalyzedDependency :=
  let filteredNewPackages := newPackages.filter (saveFilter cfg)
  let allPackages :=
    match existingPackages with
    | some ex =>
      if ex.length > 0 then
        let newPackageMap := jsFromEntries
          (filteredNewPackages.map (fun p => (makePackageKey p, p)))
        let existingKeys := ex.map makePackageKey
        (ex.map (fun e =>
          (jsGet newPackageMap (makePackageKey e)).getD e)) ++
        ((newPackageMap.filter (fun kv =>
          !(existingKeys.contains kv.1))).map (·.2))
      else filteredNewPackages
    | none => filteredNewPackages
  stableSort depLe allPackages

theorem mem_foldl_jsSet (l : List (String × α)) :
    ∀ (acc : List (String × α)) (e : String × α),
      e ∈ l.foldl (fun a x => jsSet a x.1 x.2) acc → e ∈ acc ∨ e ∈ l := by
  induction l with
  | nil => intro acc e h; exact Or.inl h
  | cons x t ih =>
    intro acc e h
    simp only [List.foldl_cons] at h
    rcases ih _ e h with h1 | h1
    · rcases mem_jsSet _ _ _ _ h1 with h2 | h2
      · right
        rw [h2]
        exact Prod.mk.eta ▸ List.mem_cons_self _ _
      · exact Or.inl h2
    · exact Or.inr (List.mem_cons_of_mem _ h1)

theorem mem_jsFromEntries (l : List (String × α)) (e : String × α)
    (h : e ∈ jsFromEntries l) : e ∈ l := by
  rcases mem_foldl_jsSet l [] e h with h1 | h1
  · simp at h1
  · exact h1

theorem hasExternalManagedPeers_of_no_peers (cfg : CDNMapping)
    (dep : AnalyzedDependency)
    (h : dep.peerDependencies.elim true (fun pd => pd.isEmpty) = true) :
    hasExternalManagedPeers cfg dep = false := by
  unfold hasExternalManagedPeers
  cases hpd : dep.peerDependencies with
  | none => rfl
  | some pd =>
    cases pd with
    | nil => rfl
    | cons p t => rw [hpd] at h; simp at h

theorem saveFilter_base_no_external (cfg : CDNMapping)
    (dep : AnalyzedDependency) (hf : saveFilter cfg dep = true)
    (hb : ctxEmptyJs dep.peerContext = true) :
    hasExternalManagedPeers cfg dep = false := by
  unfold saveFilter at hf
  have h1 : dep.peerContext.elim false
      (fun pc => !pc.isEmpty) = false := by
    cases hpc : dep.peerContext with
    | none => rfl
    | some pc =>
      rw [hpc] at hb
      simp only [ctxEmptyJs, Option.elim] at hb
      simp [hb]
  rw [h1] at hf
  simp only [Bool.false_eq_true, if_false] at hf
  by_cases h2 : dep.peerDependencies.elim true (fun pd => pd.isEmpty) = true
  · exact hasExternalManagedPeers_of_no_peers cfg dep h2
  · rw [if_neg (by simpa using h2)] at hf
    simpa using hf

/-- C6: an entry without (or with an empty) peer context whose declared peer
map contains a managed, non-wildcard peer outside the package's own
sameVersionRequired group never reaches the persisted package list, provided
the loaded existing analysis already satisfied the same invariant (fresh runs
have no existing analysis, and each run's output re-establishes it). -/
theorem saveDependencyAnalysis_base_invariant (cfg : CDNMapping)
    (existingPackages : Option (List AnalyzedDependency))
    (newPackages : List AnalyzedDependency)
    (hex : ∀ d ∈ existingPackages.getD [], ctxEmptyJs d.peerContext = true →
      hasExternalManagedPeers cfg d = false) :
    ∀ d ∈ saveDependencyAnalysisPackages cfg existingPackages newPackages,
      ctxEmptyJs d.peerContext = true →
        hasExternalManagedPeers cfg d = false := by
  have hfiltered : ∀ x ∈ newPackages.filter (saveFilter cfg),
      ctxEmptyJs x.peerContext = true →
        hasExternalManagedPeers cfg x = false := by
    intro x hx hbx
    exact saveFilter_base_no_external cfg x (List.of_mem_filter hx) hbx
  intro d hd hbase
  cases existingPackages with
  | none =>
    simp only [saveDependencyAnalysisPackages] at hd
    rw [(stableSort_perm _ _).mem_iff] at hd
    exact hfiltered d hd hbase
  | some ex =>
    simp only [saveDependencyAnalysisPackages] at hd
    rw [(stableSort_perm _ _).mem_iff] at hd
    have hexi : ∀ e ∈ ex, ctxEmptyJs e.peerContext = true →
        hasExternalManagedPeers cfg e = false := by
      intro e he
      exact hex e (by simpa using he)
    have hmapmem : ∀ k x, (k, x) ∈ jsFromEntries
        ((newPackages.filter (saveFilter cfg)).map
          (fun p => (makePackageKey p, p))) →
        x ∈ newPackages.filter (saveFilter cfg) := by
      intro k x hkx
      have h2 := mem_jsFromEntries _ _ hkx
      rcases List.mem_map.mp h2 with ⟨q, hq, hqe⟩
      have hxq : q = x := congrArg Prod.snd hqe
      exact hxq ▸ hq
    by_cases hlen : ex.length > 0
    · rw [if_pos hlen] at hd
      rcases List.mem_append.mp hd with h1 | h1
      · rcases List.mem_map.mp h1 with ⟨e, he, hde⟩
        cases hg : jsGet (jsFromEntries
            ((newPackages.filter (saveFilter cfg)).map
              (fun p => (makePackageKey p, p)))) (makePackageKey e) with
        | none =>
          rw [hg] at hde
          simp only [Option.getD_none] at hde
          exact hexi d (hde ▸ he) hbase
        | some p =>
          rw [hg] at hde
          simp only [Option.getD_some] at hde
          have hp := hmapmem _ p (jsGet_mem_entry _ _ _ hg)
          exact hfiltered d (hde ▸ hp) hbase
      · rcases List.mem_map.mp h1 with ⟨kv, hkv, hde⟩
        have hkv2 := List.mem_of_mem_filter hkv
        have hp := hmapmem kv.1 kv.2 (Prod.mk.eta ▸ hkv2)
        exact hfiltered d (hde ▸ hp) hbase
    · rw [if_neg hlen] at hd
      exact hfiltered d hd hbase

/-- Concrete configuration for the C6 witness: two managed packages, no
sameVersionRequired groups. -/
def cfgC6 : CDNMapping :=
  ⟨[("lib-a", "https://esm.sh/lib-a@\x7bversion\x7d"),
    ("lib-b", "https://esm.sh/lib-b@\x7bversion\x7d")], []⟩

/-- Concrete semver-satisfies oracle for the C6 scenario: the caret range
accepts both mirrored lib-b versions. -/
def satC6 : String → String → Bool := fun v c =>
  c == "^1.0.0" && (v == "1.0.0" || v == "1.1.0")

/-- Gathered package information for the C6 scenario: lib-a@2.0.0 declares
the peer constraint lib-b ^1.0.0, lib-b has two analyzed versions. -/
def pkgInfoC6 : List (String × List PackageInfo) :=
  [("lib-a", [⟨"lib-a", "2.0.0", [("lib-b", "^1.0.0")], true⟩]),
   ("lib-b", [⟨"lib-b", "1.0.0", [], false⟩, ⟨"lib-b", "1.1.0", [], false⟩])]

/-- New packages of the C6 scenario, generated and depth-sorted exactly as in
analyzeDependencies. -/
def newPackagesC6 : List AnalyzedDependency :=
  sortDependenciesByDepth (generateDependencyGraph cfgC6 avB2 satC6 pkgInfoC6)

/-- C6 witness: on a fresh run of the lib-a / lib-b scenario the persisted
list holds exactly two lib-a@2.0.0 entries with distinct peerContext.lib-b
values and no context-free lib-a entry, and the invariant theorem applies. -/
theorem saveDependencyAnalysis_base_invariant_witness :
    (∀ d ∈ (none : Option (List AnalyzedDependency)).getD [],
      ctxEmptyJs d.peerContext = true →
        hasExternalManagedPeers cfgC6 d = false) ∧
    ((saveDependencyAnalysisPackages cfgC6 none newPackagesC6).filter
        (fun d => d.name == "lib-a")).map
          (fun d => (d.version, d.peerContext)) =
      [("2.0.0", some [("lib-b", some "1.1.0")]),
       ("2.0.0", some [("lib-b", some "1.0.0")])] ∧
    ((saveDependencyAnalysisPackages cfgC6 none newPackagesC6).filter
        (fun d => d.name == "lib-a" && ctxEmptyJs d.peerContext)).length = 0 ∧
    (∀ d ∈ saveDependencyAnalysisPackages cfgC6 none newPackagesC6,
      ctxEmptyJs d.peerContext = true →
        hasExternalManagedPeers cfgC6 d = false) :=
  ⟨by simp, by decide, by decide,
   saveDependencyAnalysis_base_invariant cfgC6 none newPackagesC6 (by simp)⟩

-- ===== Shared URL / path helpers (part_001) =====

/-- String.prototype.split with a single-character separator, on character
lists: always returns at least one (possibly empty) segment. -/
def splitOnChar (sep : Char) : List Char → List (List Char)
  | [] => [[]]
  | c :: rest =>
    if c = sep then [] :: splitOnChar sep rest
    else
      match splitOnChar sep rest with
      | [] => [[c]]
      | h :: t => (c :: h) :: t

/-- String.prototype.split with a single-character separator. -/
def splitAtChar (sep : Char) (s : String) : List String :=
  (splitOnChar sep s.data).map (fun l => (⟨l⟩ : String))

/-- path.split(sep).filter((p) => p): split and drop the empty segments (the
only falsy strings). -/
def splitFilter (sep : Char) (s : String) : List String :=
  (splitAtChar sep s).filter (fun p => !(decide (p = "")))

/-- String.prototype.startsWith. -/
def strStartsWith (s p1 : String) : Bool := p1.data.isPrefixOf s.data

/-- arr[0] of a String.prototype.split result, which is never empty. -/
def headSeg (l : List String) : String := l.headD ""

/-- Minimal model of the WHATWG URL object: the scheme, hostname and pathname
of an absolute URL; query and fragment are dropped because the code under
study only reads hostname and pathname. -/
structure ParsedUrl where
  protocol : String
  hostname : String
  pathname : String
  deriving DecidableEq

/-- First occurrence of a separator substring: the characters before it and
the characters after it, or none when the separator does not occur. -/
def breakOnSub (sep : List Char) : List Char → Option (List Char × List Char)
  | [] => none
  | c :: rest =>
    if sep.isPrefixOf (c :: rest) then some ([], (c :: rest).drop sep.length)
    else
      match breakOnSub sep rest with
      | some (p1, post) => some (c :: p1, post)
      | none => none

/-- new URL on an absolute URL string: the scheme before "://", the authority
up to the first slash, question mark or hash as hostname, and the path from
that slash up to a question mark or hash as pathname (defaulting to "/"); a
missing separator or an empty scheme or host is a parse failure (new URL
throws), modelled as none. -/
def parseUrl (url : String) : Option ParsedUrl :=
  match breakOnSub "://".data url.data with
  | none => none
  | some (scheme, rest) =>
    if scheme.isEmpty then none
    else
      let host := rest.takeWhile (fun c => !(c = '/') && !(c = '?') && !(c = '#'))
      if host.isEmpty then none
      else
        let after := rest.drop host.length
        let path :=
          match after with
          | '/' :: _ => after.takeWhile (fun c => !(c = '?') && !(c = '#'))
          | _ => ['/']
        some ⟨⟨scheme⟩, ⟨host⟩, ⟨path⟩⟩

/-- DependencyUtils.extractPackageNameFromUrl (part_001 lines 6-31): on an
esm.sh URL with a nonempty path, the package name before the version tag
(scoped names recombined from the first two path segments); every other URL
throws, and an unparsable URL makes new URL itself throw. -/
def extractPackageNameFromUrl (url : String) : Except String String :=
  match parseUrl url with
  | none => Except.error ("Invalid URL: " ++ url)
  | some u =>
    let pathParts := splitFilter '/' u.pathname
    if u.hostname = "esm.sh" then
      match pathParts with
      | [] => Except.error ("Cannot extract package name from URL: " ++ url)
      | packagePart :: restParts =>
        if strStartsWith packagePart "@" && !restParts.isEmpty then
          Except.ok (packagePart ++ "/" ++
            headSeg (splitAtChar '@' (restParts.headD "")))
        else
          Except.ok (headSeg (splitAtChar '@' packagePart))
    else Except.error ("Cannot extract package name from URL: " ++ url)

/-- C10: extractPackageNameFromUrl succeeds exactly on URLs whose hostname is
esm.sh and whose pathname has a nonempty segment, and throws for every other
URL; in particular the esm.sh forms resolve while the cdn.jsdelivr.net and
unpkg.com equivalents throw, so every stage that funnels a fetched URL through
this helper supports only the esm.sh CDN. -/
theorem extractPackageNameFromUrl_spec :
    (∀ url : String,
      (extractPackageNameFromUrl url).isOk = true ↔
        ∃ u, parseUrl url = some u ∧ u.hostname = "esm.sh" ∧
          splitFilter '/' u.pathname ≠ []) ∧
    extractPackageNameFromUrl "https://esm.sh/react@19.2.0" =
      Except.ok "react" ∧
    extractPackageNameFromUrl "https://esm.sh/@emotion/is-prop-valid@1.4.0" =
      Except.ok "@emotion/is-prop-valid" ∧
    (extractPackageNameFromUrl
      "https://cdn.jsdelivr.net/npm/react@19.2.0").isOk = false ∧
    (extractPackageNameFromUrl "https://unpkg.com/react@19.2.0").isOk = false := by
  refine ⟨?_, by rfl, by rfl, by decide, by decide⟩
  intro url
  cases hp : parseUrl url with
  | none =>
    simp only [extractPackageNameFromUrl, hp]
    simp [Except.isOk, Except.toBool]
  | some u =>
    simp only [extractPackageNameFromUrl, hp]
    by_cases hh : u.hostname = "esm.sh"
    · rw [if_pos hh]
      cases hpp : splitFilter '/' u.pathname with
      | nil =>
        simp only [Except.isOk, Except.toBool]
        simp [hh, hpp]
      | cons p rest =>
        constructor
        · intro _
          exact ⟨u, rfl, hh, by simp [hpp]⟩
        · intro _
          cases hsw : (strStartsWith p "@" && !rest.isEmpty) <;>
            simp [hsw, Except.isOk, Except.toBool]
    · rw [if_neg hh]
      simp [Except.isOk, Except.toBool, hh]

-- ===== C9: nested relative-import tree =====

/-- Nested relative-import map: a leaf is an esm.sh URL string, an inner node
is a JS object from path segment to subtree. -/
inductive NestedValue where
  | str : String → NestedValue
  | obj : List (String × NestedValue) → NestedValue

/-- RelativeImportProcessor.setNestedPath on pre-split segments: walk all but
the last segment, inserting an empty object for a missing key; descending into
a string leaf makes the subsequent property access or assignment on a
primitive throw in strict mode, modelled as an error; the final segment is
overwritten with the value. An empty segment list indexes with undefined,
which coerces to the key "undefined". -/
def setSegments (value : String) :
    List (String × NestedValue) → List String →
      Except String (List (String × NestedValue))
  | o, [] => Except.ok (jsSet o "undefined" (NestedValue.str value))
  | o, [fin] => Except.ok (jsSet o fin (NestedValue.str value))
  | o, seg :: rest =>
    match jsGet o seg with
    | none =>
      match setSegments value [] rest with
      | Except.ok child => Except.ok (jsSet o seg (NestedValue.obj child))
      | Except.error e => Except.error e
    | some (NestedValue.obj child) =>
      match setSegments value child rest with
      | Except.ok child2 => Except.ok (jsSet o seg (NestedValue.obj child2))
      | Except.error e => Except.error e
    | some (NestedValue.str _) => Except.error "TypeError"

/-- RelativeImportProcessor.setNestedPath (relativeImportMapping.ts lines
400-422). -/
def setNestedPath (o : List (String × NestedValue)) (path value : String) :
    Except String (List (String × NestedValue)) :=
  setSegments value o (splitFilter '/' path)

/-- Post-loop scan of traverseNestedImports: the first string value among the
current object's entries, in insertion order. -/
def firstStringValue : List (String × NestedValue) → Option String
  | [] => none
  | (_, NestedValue.str s) :: _ => some s
  | (_, NestedValue.obj _) :: rest => firstStringValue rest

/-- Loop of traverseNestedImports on pre-split segments: follow the segments,
returning a string leaf as soon as one is hit, failing on a missing key, and
after consuming every segment returning the first string value of the
remaining object. -/
def traverseSegments : List (String × NestedValue) → List String → Option String
  | cur, [] => firstStringValue cur
  | cur, seg :: rest =>
    match jsGet cur seg with
    | none => none
    | some (NestedValue.str s) => some s
    | some (NestedValue.obj child) => traverseSegments child rest

/-- DependencyImportProcessor.traverseNestedImports (part_003 lines 533-568). -/
def traverseNestedImports (nestedImports : List (String × NestedValue))
    (packagePath : String) : Option String :=
  traverseSegments nestedImports (splitFilter '/' packagePath)

/-- No proper segment-path prefix is bound to a string leaf: the walk of
setNestedPath reaches the final segment without hitting a primitive. -/
def noStrLeafOnPath : List (String × NestedValue) → List String → Bool
  | _, [] => true
  | _, [_] => true
  | o, seg :: rest =>
    match jsGet o seg with
    | none => true
    | some (NestedValue.obj child) => noStrLeafOnPath child rest
    | some (NestedValue.str _) => false

theorem noStrLeafOnPath_nil : ∀ l : List String, noStrLeafOnPath [] l = true
  | [] => rfl
  | [_] => rfl
  | _ :: _ :: _ => by simp [noStrLeafOnPath, jsGet]

theorem setSegments_traverse (value : String) :
    ∀ (segs : List String) (o : List (String × NestedValue)),
      segs ≠ [] → noStrLeafOnPath o segs = true →
      ∃ o2, setSegments value o segs = Except.ok o2 ∧
        traverseSegments o2 segs = some value
  | [], _, h, _ => absurd rfl h
  | [fin], o, _, _ => by
    refine ⟨jsSet o fin (NestedValue.str value), rfl, ?_⟩
    simp [traverseSegments, jsGet_jsSet_self]
  | seg :: s2 :: rest, o, _, hpre => by
    cases hg : jsGet o seg with
    | none =>
      obtain ⟨child, hset, htrav⟩ :=
        setSegments_traverse value (s2 :: rest) [] (by simp)
          (noStrLeafOnPath_nil _)
      refine ⟨jsSet o seg (NestedValue.obj child), ?_, ?_⟩
      · simp only [setSegments, hg, hset]
      · simp only [traverseSegments, jsGet_jsSet_self]
        exact htrav
    | some v =>
      cases v with
      | str s =>
        exfalso
        simp [noStrLeafOnPath, hg] at hpre
      | obj child =>
        have hpre2 : noStrLeafOnPath child (s2 :: rest) = true := by
          simpa [noStrLeafOnPath, hg] using hpre
        obtain ⟨child2, hset, htrav⟩ :=
          setSegments_traverse value (s2 :: rest) child (by simp) hpre2
        refine ⟨jsSet o seg (NestedValue.obj child2), ?_, ?_⟩
        · simp only [setSegments, hg, hset]
        · simp only [traverseSegments, jsGet_jsSet_self]
          exact htrav

/-- C9: storing a URL with setNestedPath at a non-empty slash-separated path
none of whose proper prefixes is bound to a string leaf succeeds, and
traverseNestedImports on the same path then returns exactly that URL. -/
theorem setNestedPath_traverseNestedImports_roundtrip
    (o : List (String × NestedValue)) (path value : String)
    (hne : splitFilter '/' path ≠ [])
    (hpre : noStrLeafOnPath o (splitFilter '/' path) = true) :
    ∃ o2, setNestedPath o path value = Except.ok o2 ∧
      traverseNestedImports o2 path = some value := by
  obtain ⟨o2, h1, h2⟩ :=
    setSegments_traverse value (splitFilter '/' path) o hne hpre
  exact ⟨o2, h1, h2⟩

/-- Concrete tree for the C9 witness: react@19.2.0 already maps es2022 to a
mirror URL. -/
def treeC9 : List (String × NestedValue) :=
  [("react@19.2.0", NestedValue.obj
     [("es2022",
       NestedValue.str "https://esm.sh/react@19.2.0/es2022/react.mjs")])]

/-- C9 witness: the round-trip theorem applied to the concrete tree and the
path react@19.2.0/jsx-runtime/index.mjs, whose hypotheses hold by
computation. -/
theorem setNestedPath_traverseNestedImports_roundtrip_witness :
    splitFilter '/' "react@19.2.0/jsx-runtime/index.mjs" ≠ [] ∧
    noStrLeafOnPath treeC9
      (splitFilter '/' "react@19.2.0/jsx-runtime/index.mjs") = true ∧
    ∃ o2, setNestedPath treeC9 "react@19.2.0/jsx-runtime/index.mjs"
        "https://esm.sh/stub.mjs" = Except.ok o2 ∧
      traverseNestedImports o2 "react@19.2.0/jsx-runtime/index.mjs" =
        some "https://esm.sh/stub.mjs" :=
  ⟨by decide, by decide,
   setNestedPath_traverseNestedImports_roundtrip treeC9
     "react@19.2.0/jsx-runtime/index.mjs" "https://esm.sh/stub.mjs"
     (by decide) (by decide)⟩

-- ===== C7: best-match scoring (part_003) =====

/-- String.prototype.includes on character lists. -/
def containsSub (needle : List Char) : List Char → Bool
  | [] => needle.isEmpty
  | c :: rest => needle.isPrefixOf (c :: rest) || containsSub needle rest

/-- Array.prototype.join with a slash separator. -/
def joinSlash : List String → String
  | [] => ""
  | [x] => x
  | x :: xs => x ++ "/" ++ joinSlash xs

/-- Result of one scoring query of matchUrlToImport: the source's matches
flag (isMatch here, matches being reserved) and score. -/
structure MatchResult where
  isMatch : Bool
  score : Nat
  deriving DecidableEq

/-- Tail shared by both anchored regexes of extractPackageAndSubpath: an
optional at-sign with its non-delimiter version run, the rest captured as the
subpath group, and the query split off the subpath. -/
def subpathOfRest (rest : List Char) : String :=
  let rest2 :=
    match rest with
    | '@' :: t => t.dropWhile (fun c => !(c = '/') && !(c = '?'))
    | _ => rest
  ⟨rest2.takeWhile (fun c => !(c = '?'))⟩

/-- DependencyImportProcessor.extractPackageAndSubpath (part_003 lines
307-347): deterministic reading of the two anchored regexes, whose greedy
character classes exclude every delimiter that can follow them, so the match
is backtracking-free; a failed match leaves both fields empty. -/
def extractPackageAndSubpath (importPath : String) : String × String :=
  if strStartsWith importPath "/@" then
    match importPath.data with
    | '/' :: '@' :: rest1 =>
      let scopeRun := rest1.takeWhile (fun c => !(c = '/'))
      if scopeRun.isEmpty then ("", "")
      else
        match rest1.drop scopeRun.length with
        | '/' :: rest2 =>
          let nameRun := rest2.takeWhile
            (fun c => !(c = '@') && !(c = '/') && !(c = '?'))
          if nameRun.isEmpty then ("", "")
          else
            (("@" : String) ++ ⟨scopeRun⟩ ++ "/" ++ ⟨nameRun⟩,
             subpathOfRest (rest2.drop nameRun.length))
        | _ => ("", "")
    | _ => ("", "")
  else
    match importPath.data with
    | '/' :: rest1 =>
      let nameRun := rest1.takeWhile
        (fun c => !(c = '@') && !(c = '/') && !(c = '?'))
      if nameRun.isEmpty then ("", "")
      else (⟨nameRun⟩, subpathOfRest (rest1.drop nameRun.length))
    | _ => ("", "")

/-- Leading-slash normalization used by matchUrlToImport before comparing
subpaths. -/
def normSub (s : String) : List Char :=
  if strStartsWith s "/" then s.data.drop 1 else s.data

/-- Package name and subpath matchUrlToImport reads off the nonempty
path-part list of an esm.sh URL (scoped names recombined from the first two
parts, the version tag dropped, the remainder rejoined with slashes). -/
def urlPkgSub (pathParts : List String) : String × String :=
  let firstPart := headSeg pathParts
  if strStartsWith firstPart "@" then
    match pathParts with
    | _ :: second :: _ =>
      let remainingParts := pathParts.drop 1
      let versionRemoved :=
        if containsSub ['@'] (headSeg remainingParts).data then
          remainingParts.drop 1
        else remainingParts
      (firstPart ++ "/" ++ headSeg (splitAtChar '@' second),
       if versionRemoved.length > 0 then "/" ++ joinSlash versionRemoved
       else "")
    | _ => ("", "")
  else
    (headSeg (splitAtChar '@' firstPart),
     if (pathParts.drop 1).length > 0 then "/" ++ joinSlash (pathParts.drop 1)
     else "")

/-- DependencyImportProcessor.matchUrlToImport (part_003 lines 348-430): no
match and score 0 for a non-esm.sh, empty-path or foreign-package URL; score
1 when no specific subpath is requested; 100 for an exact normalized subpath
match, 50 for containment, 1 when only the package name matches. -/
def matchUrlToImport (manifestUrl packageName subpath : String) : MatchResult :=
  match parseUrl manifestUrl with
  | none => ⟨false, 0⟩
  | some u =>
    let pathParts := splitFilter '/' u.pathname
    if u.hostname ≠ "esm.sh" ∨ pathParts = [] then ⟨false, 0⟩
    else
      let ps := urlPkgSub pathParts
      if ps.1 ≠ packageName then ⟨false, 0⟩
      else if subpath = "" ∨ subpath = "/" then ⟨true, 1⟩
      else if normSub ps.2 = normSub subpath then ⟨true, 100⟩
      else if containsSub (normSub subpath) (normSub ps.2) = true then ⟨true, 50⟩
      else ⟨true, 1⟩

/-- DependencyImportProcessor.findBestMatchingUrl (part_003 lines 279-306):
score every cached URL, keep the matches, sort descending by score (stable)
and return the first, or null when no package name parses or nothing
matches. -/
def findBestMatchingUrl (urlToFile : List (String × String))
    (importPath : String) : Option String :=
  let allUrls := urlToFile.map Prod.fst
  let pn := extractPackageAndSubpath importPath
  if pn.1 = "" then none
  else
    let candidates := (allUrls.map
      (fun url => (url, matchUrlToImport url pn.1 pn.2))).filter
        (fun c => c.2.isMatch)
    if candidates.isEmpty then none
    else
      let sorted := stableSort
        (fun a b : String × MatchResult => decide (b.2.score ≤ a.2.score))
        candidates
      some (headSeg (sorted.map Prod.fst))

theorem matchUrlToImport_cases (m p s : String) :
    matchUrlToImport m p s = ⟨false, 0⟩ ∨
      (matchUrlToImport m p s).isMatch = true := by
  unfold matchUrlToImport
  cases parseUrl m with
  | none => exact Or.inl rfl
  | some u =>
    simp only
    split
    · exact Or.inl rfl
    · split
      · exact Or.inl rfl
      · split
        · exact Or.inr rfl
        · split
          · exact Or.inr rfl
          · split
            · exact Or.inr rfl
            · exact Or.inr rfl

theorem findBestMatchingUrl_max (utf : List (String × String)) (ip url : String)
    (hfind : findBestMatchingUrl utf ip = some url) :
    url ∈ utf.map Prod.fst ∧
    (matchUrlToImport url (extractPackageAndSubpath ip).1
      (extractPackageAndSubpath ip).2).isMatch = true ∧
    ∀ u2 ∈ utf.map Prod.fst,
      (matchUrlToImport u2 (extractPackageAndSubpath ip).1
        (extractPackageAndSubpath ip).2).score ≤
      (matchUrlToImport url (extractPackageAndSubpath ip).1
        (extractPackageAndSubpath ip).2).score := by
  simp only [findBestMatchingUrl] at hfind
  set pn := extractPackageAndSubpath ip with hpn
  by_cases h0 : pn.1 = ""
  · rw [if_pos h0] at hfind; cases hfind
  · rw [if_neg h0] at hfind
    set leC := fun a b : String × MatchResult => decide (b.2.score ≤ a.2.score)
      with hleC
    set cands := ((utf.map Prod.fst).map
      (fun u0 => (u0, matchUrlToImport u0 pn.1 pn.2))).filter
        (fun c => c.2.isMatch) with hcands
    by_cases hemp : cands.isEmpty
    · rw [if_pos hemp] at hfind; cases hfind
    · rw [if_neg hemp] at hfind
      have hurl : url = headSeg ((stableSort leC cands).map Prod.fst) :=
        (Option.some.inj hfind).symm
      have hcne : cands ≠ [] := by
        intro h
        rw [h] at hemp
        exact hemp rfl
      cases hs : stableSort leC cands with
      | nil =>
        have hlen := (stableSort_perm leC cands).length_eq
        rw [hs] at hlen
        exact absurd (List.length_eq_zero.mp hlen.symm) hcne
      | cons hd tl =>
        rw [hs] at hurl
        have hurl2 : url = hd.1 := by simpa [headSeg] using hurl
        have hhd : hd ∈ cands := by
          rw [← (stableSort_perm leC cands).mem_iff, hs]
          exact List.mem_cons_self hd tl
        have hhdf := hhd
        rw [hcands] at hhdf
        have hmatch : hd.2.isMatch = true := by
          simpa using (List.mem_filter.mp hhdf).2
        rcases List.mem_map.mp (List.mem_of_mem_filter hhdf) with ⟨u0, hu0, hu0e⟩
        have h1 : hd.1 = u0 := by rw [← hu0e]
        have h2 : hd.2 = matchUrlToImport hd.1 pn.1 pn.2 := by
          rw [← hu0e]
        refine ⟨?_, ?_, ?_⟩
        · rw [hurl2, h1]
          exact hu0
        · rw [hurl2, ← h2]
          exact hmatch
        · intro u2 hu2
          rcases matchUrlToImport_cases u2 pn.1 pn.2 with hz | hm
          · rw [hz]
            exact Nat.zero_le _
          · have hmem : (u2, matchUrlToImport u2 pn.1 pn.2) ∈ cands := by
              rw [hcands]
              exact List.mem_filter.mpr
                ⟨List.mem_map_of_mem _ hu2, by simpa using hm⟩
            have hmem2 : (u2, matchUrlToImport u2 pn.1 pn.2) ∈ hd :: tl := by
              rw [← hs]
              exact (stableSort_perm leC cands).mem_iff.mpr hmem
            rcases List.mem_cons.mp hmem2 with he | ht
            · rw [hurl2, ← h2,
                show matchUrlToImport u2 pn.1 pn.2 = hd.2 from
                  congrArg Prod.snd he]
            · have hpw := pairwise_stableSort leC
                (fun a b c hab hbc => by
                  simp only [hleC, decide_eq_true_eq] at hab hbc ⊢
                  exact Nat.le_trans hbc hab)
                (fun a b => by
                  rcases Nat.le_total a.2.score b.2.score with h | h <;>
                    simp [hleC, h])
                cands
              rw [hs] at hpw
              have hle := (List.pairwise_cons.mp hpw).1 _ ht
              rw [hurl2, ← h2]
              simpa [hleC] using hle

/-- Cached URL table of the spec's jsx-runtime scenario: two build artifacts
of react@19.2.0. -/
def urlsC7 : List (String × String) :=
  [("https://esm.sh/react@19.2.0/jsx-runtime", "react@19.2.0_aaaa.js"),
   ("https://esm.sh/react@19.2.0/es2022/react.mjs", "react@19.2.0_bbbb.js")]

/-- C7: matchUrlToImport scores an esm.sh URL of the requested package 100 on
an exact normalized-subpath match, 50 on containment, 1 when only the package
name matches or no subpath is requested, and 0 with no match for a foreign
package; findBestMatchingUrl returns a cached URL of maximal score; and on
the spec's jsx-runtime scenario it selects the jsx-runtime URL (score 100)
over the es2022 build artifact (score 1). -/
theorem findBestMatchingUrl_spec :
    (∀ m p s u, parseUrl m = some u → u.hostname = "esm.sh" →
      splitFilter '/' u.pathname ≠ [] →
      (((urlPkgSub (splitFilter '/' u.pathname)).1 ≠ p →
        matchUrlToImport m p s = ⟨false, 0⟩) ∧
       ((urlPkgSub (splitFilter '/' u.pathname)).1 = p →
        (s = "" ∨ s = "/") → matchUrlToImport m p s = ⟨true, 1⟩) ∧
       ((urlPkgSub (splitFilter '/' u.pathname)).1 = p →
        ¬(s = "" ∨ s = "/") →
        ((normSub (urlPkgSub (splitFilter '/' u.pathname)).2 = normSub s →
          matchUrlToImport m p s = ⟨true, 100⟩) ∧
         (normSub (urlPkgSub (splitFilter '/' u.pathname)).2 ≠ normSub s →
          containsSub (normSub s)
            (normSub (urlPkgSub (splitFilter '/' u.pathname)).2) = true →
          matchUrlToImport m p s = ⟨true, 50⟩) ∧
         (normSub (urlPkgSub (splitFilter '/' u.pathname)).2 ≠ normSub s →
          containsSub (normSub s)
            (normSub (urlPkgSub (splitFilter '/' u.pathname)).2) = false →
          matchUrlToImport m p s = ⟨true, 1⟩))))) ∧
    (∀ utf ip url, findBestMatchingUrl utf ip = some url →
      url ∈ utf.map Prod.fst ∧
      (matchUrlToImport url (extractPackageAndSubpath ip).1
        (extractPackageAndSubpath ip).2).isMatch = true ∧
      ∀ u2 ∈ utf.map Prod.fst,
        (matchUrlToImport u2 (extractPackageAndSubpath ip).1
          (extractPackageAndSubpath ip).2).score ≤
        (matchUrlToImport url (extractPackageAndSubpath ip).1
          (extractPackageAndSubpath ip).2).score) ∧
    findBestMatchingUrl urlsC7 "/react@^19.1.1/jsx-runtime?target=es2022" =
      some "https://esm.sh/react@19.2.0/jsx-runtime" ∧
    matchUrlToImport "https://esm.sh/react@19.2.0/jsx-runtime" "react"
      "/jsx-runtime" = ⟨true, 100⟩ ∧
    matchUrlToImport "https://esm.sh/react@19.2.0/es2022/react.mjs" "react"
      "/jsx-runtime" = ⟨true, 1⟩ := by
  refine ⟨?_, fun utf ip url hfind => findBestMatchingUrl_max utf ip url hfind,
    by decide, by decide, by decide⟩
  intro m p s u hp hh hne
  have hred : matchUrlToImport m p s =
      (if (urlPkgSub (splitFilter '/' u.pathname)).1 ≠ p then
        (⟨false, 0⟩ : MatchResult)
       else if s = "" ∨ s = "/" then ⟨true, 1⟩
       else if normSub (urlPkgSub (splitFilter '/' u.pathname)).2 = normSub s
         then ⟨true, 100⟩
       else if containsSub (normSub s)
           (normSub (urlPkgSub (splitFilter '/' u.pathname)).2) = true
         then ⟨true, 50⟩
       else ⟨true, 1⟩) := by
    simp only [matchUrlToImport, hp]
    rw [if_neg (fun hor => hor.elim (fun h1 => h1 hh) (fun h2 => hne h2))]
  rw [hred]
  refine ⟨?_, ?_, ?_⟩
  · intro hne1
    rw [if_pos hne1]
  · intro heq hs
    rw [if_neg (fun h => h heq), if_pos hs]
  · intro heq hs
    refine ⟨?_, ?_, ?_⟩
    · intro hex
      rw [if_neg (fun h => h heq), if_neg hs, if_pos hex]
    · intro hnex hcont
      rw [if_neg (fun h => h heq), if_neg hs, if_neg hnex, if_pos hcont]
    · intro hnex hncont
      rw [if_neg (fun h => h heq), if_neg hs, if_neg hnex,
        if_neg (by simp [hncont])]

/-- C7 witness: the scorer characterization applied to the concrete
jsx-runtime URL (score 100) and the maximality of findBestMatchingUrl
applied to the concrete scenario table against the es2022 artifact. -/
theorem findBestMatchingUrl_spec_witness :
    matchUrlToImport "https://esm.sh/react@19.2.0/jsx-runtime" "react"
      "/jsx-runtime" = ⟨true, 100⟩ ∧
    (matchUrlToImport "https://esm.sh/react@19.2.0/es2022/react.mjs"
        (extractPackageAndSubpath "/react@^19.1.1/jsx-runtime?target=es2022").1
        (extractPackageAndSubpath
          "/react@^19.1.1/jsx-runtime?target=es2022").2).score ≤
      (matchUrlToImport "https://esm.sh/react@19.2.0/jsx-runtime"
        (extractPackageAndSubpath "/react@^19.1.1/jsx-runtime?target=es2022").1
        (extractPackageAndSubpath
          "/react@^19.1.1/jsx-runtime?target=es2022").2).score :=
  ⟨((findBestMatchingUrl_spec.1 "https://esm.sh/react@19.2.0/jsx-runtime"
      "react" "/jsx-runtime"
      ⟨"https", "esm.sh", "/react@19.2.0/jsx-runtime"⟩
      (by decide) (by decide) (by decide)).2.2 (by decide) (by decide)).1
      (by decide),
   ((findBestMatchingUrl_spec.2.1 urlsC7
      "/react@^19.1.1/jsx-runtime?target=es2022"
      "https://esm.sh/react@19.2.0/jsx-runtime" (by decide)).2.2
      "https://esm.sh/react@19.2.0/es2022/react.mjs" (by decide))⟩

-- ===== C8: download retry loop (download-dependencies.ts lines 1499-1590) =====

/-- Outcome of one network attempt: a response body, an error carrying a
Node.js error code and no response, or an HTTP error response status. -/
inductive NetOutcome where
  | ok : String → NetOutcome
  | errCode : String → NetOutcome
  | errStatus : Nat → NetOutcome

/-- The isRetryableError test of the catch block: the four transient Node
error codes, or a response status of at least 500. -/
def isRetryableError : NetOutcome → Bool
  | NetOutcome.ok _ => false
  | NetOutcome.errCode c =>
    c = "ETIMEDOUT" || c = "ECONNRESET" || c = "ENOTFOUND" ||
      c = "ECONNREFUSED"
  | NetOutcome.errStatus st => decide (500 ≤ st)

/-- The error thrown after the retry loop exits (its interpolated url and
attempt count are elided). -/
def retryMsg : String := "Failed to download after retries exhausted"

/-- The retry loop body over an abstract per-attempt network oracle: fuel
counts the remaining loop iterations; a retryable failure with attempts left
sleeps retryDelay * attempt and continues, anything else breaks to the final
throw; the result pairs the outcome with the list of slept delays. -/
def runAttempts (net : Nat → NetOutcome) (retries d : Nat) :
    Nat → Nat → Except String String × List Nat
  | _, 0 => (Except.error retryMsg, [])
  | attempt, fuel + 1 =>
    match net attempt with
    | NetOutcome.ok content => (Except.ok content, [])
    | NetOutcome.errCode c =>
      if isRetryableError (NetOutcome.errCode c) && decide (attempt < retries)
      then
        let r := runAttempts net retries d (attempt + 1) fuel
        (r.1, d * attempt :: r.2)
      else (Except.error retryMsg, [])
    | NetOutcome.errStatus st =>
      if isRetryableError (NetOutcome.errStatus st) &&
          decide (attempt < retries)
      then
        let r := runAttempts net retries d (attempt + 1) fuel
        (r.1, d * attempt :: r.2)
      else (Except.error retryMsg, [])

/-- DependencyDownloader.downloadDependency retry loop: attempts run from 1
to retries (default 3, retryDelay default 1000). -/
def downloadDependency (net : Nat → NetOutcome) (retries retryDelay : Nat) :
    Except String String × List Nat :=
  runAttempts net retries retryDelay 1 retries

theorem cons_range_map (d attempt : Nat) (l : List Nat) (n : Nat)
    (hl : l = (List.range n).map (fun i => d * (attempt + 1 + i))) :
    d * attempt :: l =
      (List.range (n + 1)).map (fun i => d * (attempt + i)) := by
  subst hl
  rw [List.range_succ_eq_map, List.map_cons, List.map_map]
  congr 1
  apply List.map_congr_left
  intro a _
  simp only [Function.comp_apply]
  congr 1
  omega

theorem runAttempts_fail_fast (net : Nat → NetOutcome)
    (retries d fuel attempt : Nat)
    (hnr : isRetryableError (net attempt) = false)
    (hok : ∀ c, net attempt ≠ NetOutcome.ok c) :
    runAttempts net retries d attempt (fuel + 1) =
      (Except.error retryMsg, []) := by
  cases hn : net attempt with
  | ok c => exact absurd hn (hok c)
  | errCode c =>
    rw [hn] at hnr
    simp only [runAttempts, hn]
    rw [if_neg (by simp [hnr])]
  | errStatus st =>
    rw [hn] at hnr
    simp only [runAttempts, hn]
    rw [if_neg (by simp [hnr])]

theorem runAttempts_delays (net : Nat → NetOutcome) (retries d : Nat) :
    ∀ fuel attempt,
      ((runAttempts net retries d attempt fuel).2 =
        (List.range (runAttempts net retries d attempt fuel).2.length).map
          (fun i => d * (attempt + i))) ∧
      (∀ i, i < (runAttempts net retries d attempt fuel).2.length →
        isRetryableError (net (attempt + i)) = true ∧ attempt + i < retries)
  | 0, attempt => by
    constructor
    · rfl
    · intro i hi
      simp [runAttempts] at hi
  | fuel + 1, attempt => by
    have ih := runAttempts_delays net retries d fuel (attempt + 1)
    obtain ⟨ih1, ih2⟩ := ih
    cases hn : net attempt with
    | ok c =>
      constructor
      · simp [runAttempts, hn]
      · intro i hi
        simp [runAttempts, hn] at hi
    | errCode c =>
      by_cases hc : (isRetryableError (NetOutcome.errCode c) &&
          decide (attempt < retries)) = true
      · have hstep : runAttempts net retries d attempt (fuel + 1) =
            ((runAttempts net retries d (attempt + 1) fuel).1,
             d * attempt :: (runAttempts net retries d (attempt + 1) fuel).2) := by
          simp only [runAttempts, hn]
          rw [if_pos hc]
        rw [hstep]
        rcases Bool.and_eq_true_iff.mp hc with ⟨hc1, hc2⟩
        constructor
        · simp only [List.length_cons]
          exact cons_range_map d attempt _ _ ih1
        · intro i hi
          cases i with
          | zero =>
            rw [Nat.add_zero, hn]
            exact ⟨hc1, by simpa using hc2⟩
          | succ j =>
            have hj := ih2 j (by simpa using hi)
            have he : attempt + (j + 1) = attempt + 1 + j := by omega
            rw [he]
            exact hj
      · have hstep : runAttempts net retries d attempt (fuel + 1) =
            (Except.error retryMsg, []) := by
          simp only [runAttempts, hn]
          rw [if_neg hc]
        rw [hstep]
        exact ⟨rfl, fun i hi => by simp at hi⟩
    | errStatus st =>
      by_cases hc : (isRetryableError (NetOutcome.errStatus st) &&
          decide (attempt < retries)) = true
      · have hstep : runAttempts net retries d attempt (fuel + 1) =
            ((runAttempts net retries d (attempt + 1) fuel).1,
             d * attempt :: (runAttempts net retries d (attempt + 1) fuel).2) := by
          simp only [runAttempts, hn]
          rw [if_pos hc]
        rw [hstep]
        rcases Bool.and_eq_true_iff.mp hc with ⟨hc1, hc2⟩
        constructor
        · simp only [List.length_cons]
          exact cons_range_map d attempt _ _ ih1
        · intro i hi
          cases i with
          | zero =>
            rw [Nat.add_zero, hn]
            exact ⟨hc1, by simpa using hc2⟩
          | succ j =>
            have hj := ih2 j (by simpa using hi)
            have he : attempt + (j + 1) = attempt + 1 + j := by omega
            rw [he]
            exact hj
      · have hstep : runAttempts net retries d attempt (fuel + 1) =
            (Except.error retryMsg, []) := by
          simp only [runAttempts, hn]
          rw [if_neg hc]
        rw [hstep]
        exact ⟨rfl, fun i hi => by simp at hi⟩

theorem runAttempts_all_retryable (net : Nat → NetOutcome) (retries d : Nat) :
    ∀ fuel attempt,
      attempt + fuel = retries + 1 →
      (∀ k, attempt ≤ k → k ≤ retries → isRetryableError (net k) = true) →
      runAttempts net retries d attempt fuel =
        (Except.error retryMsg,
         (List.range (retries - attempt)).map (fun i => d * (attempt + i)))
  | 0, attempt => by
    intro hsum _
    have h0 : retries - attempt = 0 := by omega
    rw [h0]
    rfl
  | fuel + 1, attempt => by
    intro hsum hall
    have hle : attempt ≤ retries := by omega
    have hr := hall attempt (Nat.le_refl _) hle
    cases hn : net attempt with
    | ok c =>
      rw [hn] at hr
      simp [isRetryableError] at hr
    | errCode c =>
      rw [hn] at hr
      by_cases hlt : attempt < retries
      · have hrec := runAttempts_all_retryable net retries d fuel (attempt + 1)
          (by omega) (fun k hk1 hk2 => hall k (by omega) hk2)
        have hstep : runAttempts net retries d attempt (fuel + 1) =
            ((runAttempts net retries d (attempt + 1) fuel).1,
             d * attempt :: (runAttempts net retries d (attempt + 1) fuel).2) := by
          simp only [runAttempts, hn]
          rw [if_pos (by simp [hr, hlt])]
        rw [hstep, hrec]
        have hra : retries - attempt = (retries - (attempt + 1)) + 1 := by omega
        rw [hra]
        exact congrArg (Prod.mk (Except.error retryMsg))
          (cons_range_map d attempt _ _ rfl)
      · have hstep : runAttempts net retries d attempt (fuel + 1) =
            (Except.error retryMsg, []) := by
          simp only [runAttempts, hn]
          rw [if_neg (by simp [hlt])]
        rw [hstep]
        have h0 : retries - attempt = 0 := by omega
        rw [h0]
        rfl
    | errStatus st =>
      rw [hn] at hr
      by_cases hlt : attempt < retries
      · have hrec := runAttempts_all_retryable net retries d fuel (attempt + 1)
          (by omega) (fun k hk1 hk2 => hall k (by omega) hk2)
        have hstep : runAttempts net retries d attempt (fuel + 1) =
            ((runAttempts net retries d (attempt + 1) fuel).1,
             d * attempt :: (runAttempts net retries d (attempt + 1) fuel).2) := by
          simp only [runAttempts, hn]
          rw [if_pos (by simp [hr, hlt])]
        rw [hstep, hrec]
        have hra : retries - attempt = (retries - (attempt + 1)) + 1 := by omega
        rw [hra]
        exact congrArg (Prod.mk (Except.error retryMsg))
          (cons_range_map d attempt _ _ rfl)
      · have hstep : runAttempts net retries d attempt (fuel + 1) =
            (Except.error retryMsg, []) := by
          simp only [runAttempts, hn]
          rw [if_neg (by simp [hlt])]
        rw [hstep]
        have h0 : retries - attempt = 0 := by omega
        rw [h0]
        rfl

/-- C8: a non-retryable failure ends the fetch at once with the final throw
and no sleeps; every slept delay belongs to an attempt whose failure was
retryable and that still had attempts left, and the delays are exactly
retryDelay * attempt for consecutive attempts from 1 (so at most retries - 1
sleeps happen); at the downloader's fixed bound of three attempts a fully
transient failure sequence throws after sleeping 1000 * 2 ^ 0 then
1000 * 2 ^ 1 milliseconds; a 404 response is not retried; and a timeout
followed by a success is retried and succeeds after one 1000 ms sleep. -/
theorem downloadDependency_retry_spec :
    (∀ net retries d fuel attempt,
      isRetryableError (net attempt) = false →
      (∀ c, net attempt ≠ NetOutcome.ok c) →
      runAttempts net retries d attempt (fuel + 1) =
        (Except.error retryMsg, [])) ∧
    (∀ net retries d,
      ((downloadDependency net retries d).2 =
        (List.range (downloadDependency net retries d).2.length).map
          (fun i => d * (1 + i))) ∧
      (∀ i, i < (downloadDependency net retries d).2.length →
        isRetryableError (net (1 + i)) = true ∧ 1 + i < retries)) ∧
    (∀ net, (∀ k, 1 ≤ k → k ≤ 3 → isRetryableError (net k) = true) →
      downloadDependency net 3 1000 =
        (Except.error retryMsg, [1000 * 2 ^ 0, 1000 * 2 ^ 1])) ∧
    downloadDependency (fun _ => NetOutcome.errStatus 404) 3 1000 =
      (Except.error retryMsg, []) ∧
    downloadDependency
      (fun k => if k = 1 then NetOutcome.errCode "ETIMEDOUT"
        else NetOutcome.ok "content") 3 1000 =
      (Except.ok "content", [1000]) := by
  refine ⟨runAttempts_fail_fast,
    fun net retries d => runAttempts_delays net retries d retries 1,
    ?_, rfl, rfl⟩
  intro net h
  show runAttempts net 3 1000 1 3 = _
  rw [runAttempts_all_retryable net 3 1000 3 1 (by omega)
    (fun k hk1 hk2 => h k hk1 hk2)]
  rfl

/-- C8 witness: the fail-fast part applied to a constant 404 oracle with
fuel 2 and the exhaustion part applied to a constant-timeout oracle. -/
theorem downloadDependency_retry_spec_witness :
    runAttempts (fun _ => NetOutcome.errStatus 404) 3 1000 2 3 =
      (Except.error retryMsg, []) ∧
    downloadDependency (fun _ => NetOutcome.errCode "ETIMEDOUT") 3 1000 =
      (Except.error retryMsg, [1000 * 2 ^ 0, 1000 * 2 ^ 1]) :=
  ⟨downloadDependency_retry_spec.1 (fun _ => NetOutcome.errStatus 404)
      3 1000 2 2 (by decide) (fun c h => NetOutcome.noConfusion h),
   downloadDependency_retry_spec.2.2.1 (fun _ => NetOutcome.errCode "ETIMEDOUT")
      (fun k h1 h2 =>
        (by decide : isRetryableError (NetOutcome.errCode "ETIMEDOUT") = true))⟩

-- ===== C4: import extraction (part_001 lines 152-261) =====

/-- Expression fragment of the parsed-module model: string literals, template
literals (their text chunks), dynamic-import calls, and composite nodes with
two children standing for every other expression form. -/
inductive JsExpr where
  | strLit : String → JsExpr
  | tmplLit : List String → JsExpr
  | dynImport : JsExpr → JsExpr
  | comp : JsExpr → JsExpr → JsExpr

/-- Top-level statement of the parsed-module model: the node kinds the four
Babel visitors react to, plus expression statements. -/
inductive JsStmt where
  | importDecl : String → JsStmt
  | exportNamedFrom : String → JsStmt
  | exportNamedLocal : JsStmt
  | exportAllFrom : String → JsStmt
  | exprStmt : JsExpr → JsStmt

/-- The Import visitor's argument test: a push happens only when the first
call argument is a string literal. -/
def litHead : JsExpr → List String
  | JsExpr.strLit s => [s]
  | _ => []

/-- Specifiers the Import visitor collects from an expression subtree in
depth-first order. -/
def importsOfExpr : JsExpr → List String
  | JsExpr.strLit _ => []
  | JsExpr.tmplLit _ => []
  | JsExpr.dynImport e => litHead e ++ importsOfExpr e
  | JsExpr.comp a b => importsOfExpr a ++ importsOfExpr b

/-- Specifiers the four visitors collect from one statement. -/
def stmtImports : JsStmt → List String
  | JsStmt.importDecl s => [s]
  | JsStmt.exportNamedFrom s => [s]
  | JsStmt.exportNamedLocal => []
  | JsStmt.exportAllFrom s => [s]
  | JsStmt.exprStmt e => importsOfExpr e

/-- Specification-side reading of C4: the string-literal sources of the
module's genuine static imports, re-export declarations and dynamic imports,
in traversal order. -/
def genuineImportSources (prog : List JsStmt) : List String :=
  (prog.map stmtImports).flatten

/-- The scheme filter applied to the Babel-collected imports. -/
def validImportFilter (imp : String) : Bool :=
  !(strStartsWith imp "data:") && !(strStartsWith imp "blob:") &&
    !(strStartsWith imp "chrome-extension:")

/-- An expression built purely from literals and composite data nodes: no
dynamic-import call anywhere. -/
def isDataExpr : JsExpr → Bool
  | JsExpr.strLit _ => true
  | JsExpr.tmplLit _ => true
  | JsExpr.dynImport _ => false
  | JsExpr.comp a b => isDataExpr a && isDataExpr b

/-- The \s class of the fallback regexes (ASCII whitespace; the rare Unicode
space code points are not exercised here). -/
def isSpaceJs (c : Char) : Bool :=
  c = ' ' || c = '\t' || c = '\n' || c = '\x0d' || c = '\x0b' || c = '\x0c'

/-- Line terminators that the regex dot never matches. -/
def isLineTerm (c : Char) : Bool :=
  c = '\n' || c = '\x0d' || c = '\u2028' || c = '\u2029'

/-- The characters of the negative lookbehind class. -/
def quoteChar (c : Char) : Bool := c = '"' || c = '\'' || c = '`'

/-- Tail of the first fallback regex: from, optional whitespace, a quote, a
nonempty run without quotes as the capture, a closing quote; returns the
capture and the number of characters consumed. -/
def matchFromAt (cs : List Char) : Option (String × Nat) :=
  if "from".data.isPrefixOf cs then
    let cs2 := cs.drop 4
    let ws := cs2.takeWhile isSpaceJs
    match cs2.drop ws.length with
    | q :: cs4 =>
      if q = '"' || q = '\'' then
        let grp := cs4.takeWhile (fun c => !(c = '"') && !(c = '\''))
        match cs4.drop grp.length with
        | q2 :: _ =>
          if (q2 = '"' || q2 = '\'') && !grp.isEmpty then
            some (⟨grp⟩, 4 + ws.length + 1 + grp.length + 1)
          else none
        | [] => none
      else none
    | [] => none
  else none

/-- The lazy dot run of the first fallback regex: try the tail here, else
consume one non-line-terminator character and move on. -/
def matchLazyDotFrom : List Char → Option (String × Nat)
  | [] => none
  | c :: rest =>
    match matchFromAt (c :: rest) with
    | some r => some r
    | none =>
      if isLineTerm c then none
      else
        match matchLazyDotFrom rest with
        | some (g, n) => some (g, n + 1)
        | none => none

/-- One attempt of the first fallback regex at the current position, guarded
by the single-character negative lookbehind. -/
def matchImportExportAt (prev : Option Char) (cs : List Char) :
    Option (String × Nat) :=
  if (prev.map quoteChar).getD false then none
  else if "import".data.isPrefixOf cs then
    (matchLazyDotFrom (cs.drop 6)).map (fun r => (r.1, r.2 + 6))
  else if "export".data.isPrefixOf cs then
    (matchLazyDotFrom (cs.drop 6)).map (fun r => (r.1, r.2 + 6))
  else none

/-- One attempt of the dynamic-import fallback regex at the current
position. -/
def matchDynAt (prev : Option Char) (cs : List Char) :
    Option (String × Nat) :=
  if (prev.map quoteChar).getD false then none
  else if "import".data.isPrefixOf cs then
    let cs1 := cs.drop 6
    let w1 := cs1.takeWhile isSpaceJs
    match cs1.drop w1.length with
    | '(' :: cs2 =>
      let w2 := cs2.takeWhile isSpaceJs
      match cs2.drop w2.length with
      | q :: cs3 =>
        if q = '"' || q = '\'' then
          let grp := cs3.takeWhile (fun c => !(c = '"') && !(c = '\''))
          match cs3.drop grp.length with
          | q2 :: cs4 =>
            if (q2 = '"' || q2 = '\'') && !grp.isEmpty then
              let w3 := cs4.takeWhile isSpaceJs
              match cs4.drop w3.length with
              | ')' :: _ =>
                some (⟨grp⟩,
                  6 + w1.length + 1 + w2.length + 1 + grp.length + 1 +
                    w3.length + 1)
              | _ => none
            else none
          | [] => none
        else none
      | [] => none
    | _ => none
  else none

/-- Global exec loop of the first fallback regex: leftmost matches, resuming
after each match end; fuel is the input length. -/
def scanImports : Nat → Option Char → List Char → List String
  | 0, _, _ => []
  | _, _, [] => []
  | fuel + 1, prev, c :: rest =>
    match matchImportExportAt prev (c :: rest) with
    | some (grp, consumed) =>
      grp :: scanImports fuel ((c :: rest).get? (consumed - 1))
        ((c :: rest).drop consumed)
    | none => scanImports fuel (some c) rest

/-- Global exec loop of the dynamic-import fallback regex. -/
def scanDyn : Nat → Option Char → List Char → List String
  | 0, _, _ => []
  | _, _, [] => []
  | fuel + 1, prev, c :: rest =>
    match matchDynAt prev (c :: rest) with
    | some (grp, consumed) =>
      grp :: scanDyn fuel ((c :: rest).get? (consumed - 1))
        ((c :: rest).drop consumed)
    | none => scanDyn fuel (some c) rest

/-- The bare-import fallback regex, anchored to one full line. -/
def bareLineMatch (line : List Char) : Option String :=
  if "import".data.isPrefixOf line then
    let cs1 := line.drop 6
    let w1 := cs1.takeWhile isSpaceJs
    if w1.isEmpty then none
    else
      match cs1.drop w1.length with
      | q :: cs2 =>
        if q = '"' || q = '\'' then
          let grp := cs2.takeWhile (fun c => !(c = '"') && !(c = '\''))
          if grp.isEmpty then none
          else
            match cs2.drop grp.length with
            | [q2] => if q2 = '"' || q2 = '\'' then some ⟨grp⟩ else none
            | [q2, e] =>
              if (q2 = '"' || q2 = '\'') && e = ';' then some ⟨grp⟩ else none
            | _ => none
        else none
      | [] => none
  else none

/-- The filter of the regex fallback: no template interpolation marker, no
data, blob or chrome-extension scheme, and a nonempty trimmed text. -/
def rawValidFilter (imp : String) : Bool :=
  !(containsSub "$\x7b".data imp.data) &&
  !(strStartsWith imp "data:") && !(strStartsWith imp "blob:") &&
  !(strStartsWith imp "chrome-extension:") &&
  imp.data.any (fun c => !(isSpaceJs c))

/-- Set-based dedup keeping first occurrences, as spread of a new Set. -/
def dedupAcc (seen : List String) : List String → List String
  | [] => []
  | x :: xs =>
    if seen.contains x then dedupAcc seen xs
    else x :: dedupAcc (x :: seen) xs

/-- DependencyUtils.extractRawImports (part_001 lines 220-261): the three
global regexes in order, the validity filter, and deduplication. -/
def extractRawImports (content : String) : List String :=
  let d := content.data
  let l1 := scanImports d.length none d
  let l2 := scanDyn d.length none d
  let l3 := (splitOnChar '\n' d).filterMap bareLineMatch
  dedupAcc [] ((l1 ++ l2 ++ l3).filter rawValidFilter)

/-- A source file as the extractor sees it: either Babel parses it into a
module, or parsing throws and only the raw text is available. -/
inductive JsContent where
  | parsed : List JsStmt → JsContent
  | unparsable : String → JsContent

/-- DependencyUtils.extractRawImportsWithBabel (part_001 lines 152-219):
visitor-based collection plus scheme filter on a parsed module, regex
fallback on a parse failure. -/
def extractRawImportsWithBabel : JsContent → List String
  | JsContent.parsed prog =>
    (genuineImportSources prog).filter validImportFilter
  | JsContent.unparsable raw => extractRawImports raw

theorem importsOfExpr_data :
    ∀ e : JsExpr, isDataExpr e = true → importsOfExpr e = []
  | JsExpr.strLit _, _ => rfl
  | JsExpr.tmplLit _, _ => rfl
  | JsExpr.dynImport _, h => by simp [isDataExpr] at h
  | JsExpr.comp a b, h => by
    simp only [isDataExpr, Bool.and_eq_true] at h
    simp [importsOfExpr, importsOfExpr_data a h.1, importsOfExpr_data b h.2]

/-- Test-suite module: a genuine import, a decoy string literal whose text
quotes the word import, and a genuine re-export. -/
def progC4 : List JsStmt :=
  [JsStmt.importDecl "./real-module",
   JsStmt.exprStmt (JsExpr.strLit "'import' is not allowed"),
   JsStmt.exportNamedFrom "./another-real"]

/-- C4 (amended): on a source Babel parses, every extracted specifier is the
source of a genuine import, re-export or dynamic-import node; an expression
built purely of string and template literals and composite data nodes
contributes no specifier whatever its text says; and the test-suite module
with a decoy literal extracts exactly its two genuine sources.  The original
universal claim fails on the regex fallback path taken when parsing
throws. -/
theorem extractRawImportsWithBabel_spec :
    (∀ (prog : List JsStmt) (s : String),
      s ∈ extractRawImportsWithBabel (JsContent.parsed prog) →
        s ∈ genuineImportSources prog) ∧
    (∀ e : JsExpr, isDataExpr e = true → importsOfExpr e = []) ∧
    extractRawImportsWithBabel (JsContent.parsed progC4) =
      ["./real-module", "./another-real"] := by
  refine ⟨?_, importsOfExpr_data, by decide⟩
  intro prog s hs
  exact List.mem_of_mem_filter hs

/-- C4 witness: the soundness part applied to a one-import module and the
literal-blindness part applied to a literal that spells out an import
statement. -/
theorem extractRawImportsWithBabel_spec_witness :
    "bar" ∈ genuineImportSources [JsStmt.importDecl "bar"] ∧
    importsOfExpr (JsExpr.strLit "import x from 'y'") = [] :=
  ⟨extractRawImportsWithBabel_spec.1 [JsStmt.importDecl "bar"] "bar"
      (by decide),
   extractRawImportsWithBabel_spec.2.1 (JsExpr.strLit "import x from 'y'")
      (by decide)⟩

/-- Source text of the C4 counterexample: a syntax error makes Babel throw,
and a string literal contains an import phrase one space after its opening
quote. -/
def cexC4 : String := "let = 1;\nconst s = \" import a from 'mod'\";"

/-- C4 counterexample: on a source Babel cannot parse the extractor falls
back to the regexes, whose lookbehind only inspects the one character before
the word import (here a space inside the literal), so the specifier mod is
returned straight out of a string literal. -/
theorem extractRawImportsWithBabel_string_literal_counterexample :
    extractRawImportsWithBabel (JsContent.unparsable cexC4) = ["mod"] ∧
    containsSub "\" import a from 'mod'\"".data cexC4.data = true :=
  ⟨by decide, by decide⟩

-- ===== C3: mirror filename round-trip (part_001 lines 265-340, =====
-- ===== download-dependencies.ts lines 1603-1694)                =====

/-- Global single-character replacement, as replace with a /g regex of one
character. -/
def replaceAllChar (a b : Char) (l : List Char) : List Char :=
  l.map (fun c => if c = a then b else c)

/-- DependencyUtils.cleanPackageVersion: drop the range sigil of the first
at-caret or at-tilde occurrence. -/
def cleanVersionChars : List Char → List Char
  | [] => []
  | '@' :: c :: rest =>
    if c = '^' || c = '~' then '@' :: rest
    else '@' :: cleanVersionChars (c :: rest)
  | c :: rest => c :: cleanVersionChars rest

/-- DependencyUtils.cleanPackageVersion on strings. -/
def cleanPackageVersion (s : String) : String := ⟨cleanVersionChars s.data⟩

/-- DependencyDownloader.saveDependency filename construction
(download-dependencies.ts lines 1603-1694): slashes of the name become
dashes, the version is range-cleaned, peer-context entries other than the
package itself and its sameVersionRequired group members join as
name-version with underscores, and the hash and .js extension close the
filename. -/
def buildDepFilename (name version : String)
    (peerContext : List (String × String)) (hash : String)
    (svg : Option (List String)) : String :=
  let sanitizedName : String := ⟨replaceAllChar '/' '-' name.data⟩
  let lockedVersion := cleanPackageVersion version
  let ufpc := peerContext.filterMap (fun e =>
    if e.1 = name then none
    else if (svg.map (fun g => g.contains e.1)).getD false then none
    else some (e.1 ++ "-" ++ e.2))
  if ufpc.length > 0 then
    sanitizedName ++ "@" ++ lockedVersion ++ "_" ++ joinUnderscore ufpc ++
      "_" ++ hash ++ ".js"
  else
    sanitizedName ++ "@" ++ lockedVersion ++ "_" ++ hash ++ ".js"

/-- Leading group of the scoped filename regexes: at-sign, a nonempty
dash-free run, a dash, a nonempty at-free run, an at-sign, a nonempty
underscore-free run; each greedy run stops at the literal that follows it,
so the match is deterministic. -/
def group1Scoped (cs : List Char) : Option (List Char × List Char) :=
  match cs with
  | '@' :: cs1 =>
    let a := cs1.takeWhile (fun c => !(c = '-'))
    if a.isEmpty then none
    else
      match cs1.dropWhile (fun c => !(c = '-')) with
      | '-' :: cs2 =>
        let b := cs2.takeWhile (fun c => !(c = '@'))
        if b.isEmpty then none
        else
          match cs2.dropWhile (fun c => !(c = '@')) with
          | '@' :: cs3 =>
            let v := cs3.takeWhile (fun c => !(c = '_'))
            if v.isEmpty then none
            else some ('@' :: a ++ '-' :: b ++ '@' :: v,
              cs3.dropWhile (fun c => !(c = '_')))
          | _ => none
      | _ => none
  | _ => none

/-- Leading group of the unscoped filename regexes: a nonempty at-free run,
an at-sign, a nonempty underscore-free run. -/
def group1Unscoped (cs : List Char) : Option (List Char × List Char) :=
  let a := cs.takeWhile (fun c => !(c = '@'))
  if a.isEmpty then none
  else
    match cs.dropWhile (fun c => !(c = '@')) with
    | '@' :: cs2 =>
      let v := cs2.takeWhile (fun c => !(c = '_'))
      if v.isEmpty then none
      else some (a ++ '@' :: v, cs2.dropWhile (fun c => !(c = '_')))
    | _ => none

/-- The anchored hash tail: a nonempty underscore-free group followed by
exactly .js at the end. -/
def matchHashJs (t : List Char) : Option (List Char) :=
  let g := t.take (t.length - 3)
  if t.drop (t.length - 3) = ".js".data ∧ ¬g.isEmpty = true ∧
      g.all (fun c => !(c = '_')) = true then some g
  else none

/-- The lazy middle group of the with-peers regexes: the shortest prefix
whose following underscore leaves a valid hash tail; the dot of the pattern
rejects line terminators. -/
def splitPeersTail : List Char → Option (List Char × List Char)
  | [] => none
  | c :: rest =>
    if c = '_' then
      match matchHashJs rest with
      | some g3 => some ([], g3)
      | none =>
        match splitPeersTail rest with
        | some (g2, g3) => some ('_' :: g2, g3)
        | none => none
    else if isLineTerm c then none
    else
      match splitPeersTail rest with
      | some (g2, g3) => some (c :: g2, g3)
      | none => none

/-- The digit-or-dot class of the peer-part regex. -/
def isDigitDot (c : Char) : Bool := c.isDigit || c = '.'

/-- The peer-part regex: a greedy nonempty group, a dash, a nonempty
digits-and-dots version; greediness makes the dash the one right before the
maximal trailing digits-and-dots run. -/
def splitPeerPart (part : List Char) : Option (List Char × List Char) :=
  let k := (part.reverse.takeWhile isDigitDot).length
  if 1 ≤ k ∧ k + 2 ≤ part.length then
    match part.drop (part.length - k - 1) with
    | '-' :: v => some (part.take (part.length - k - 1), v)
    | _ => none
  else none

/-- Scope de-sanitization of a parsed peer name: a name starting with an
at-sign has its first dash after position zero turned back into a slash. -/
def deSanitizePeerName (p : List Char) : List Char :=
  match p with
  | '@' :: rest => '@' :: replaceFirstChars "-".data "/".data rest
  | _ => p

/-- One entry of the peer-context part: group, dash, version, then scope
de-sanitization and reassembly with an at-sign. -/
def parsePeerPart (part : List Char) : Option String :=
  match splitPeerPart part with
  | none => none
  | some (p, v) => some ((⟨deSanitizePeerName p⟩ : String) ++ "@" ++ ⟨v⟩)

/-- Parse result of parseDepFilename. -/
structure ParsedDepFilename where
  baseDepNameVersion : String
  peerContext : List String
  deriving DecidableEq

/-- parseDepFilename (part_001 lines 265-327): try the with-peers regex,
then the no-peers regex; de-sanitize a scoped base by turning its first dash
into a slash; split the peer part on underscores and parse each entry. -/
def parseDepFilename (filename : String) : Option ParsedDepFilename :=
  let d := filename.data
  let g1r := if strStartsWith filename "@" then group1Scoped d
             else group1Unscoped d
  match g1r with
  | none => none
  | some (g1, rest) =>
    match rest with
    | '_' :: r =>
      let pk : Option (List Char) :=
        match splitPeersTail r with
        | some (g2, _) => some g2
        | none =>
          match matchHashJs r with
          | some _ => some []
          | none => none
      match pk with
      | none => none
      | some g2 =>
        let base :=
          if strStartsWith (⟨g1⟩ : String) "@"
          then replaceFirst ⟨g1⟩ "-" "/"
          else (⟨g1⟩ : String)
        let peers :=
          if g2.isEmpty then []
          else (splitOnChar '_' g2).filterMap parsePeerPart
        some ⟨base, peers⟩
    | _ => none

/-- C3 counterexample: a dash inside the scope segment of a scoped package
name collides with the slash sanitization; parsing puts the slash back at
the first dash, yielding a different package name than the one saved. -/
theorem parseDepFilename_scoped_dash_counterexample :
    buildDepFilename "@my-scope/pkg" "1.0.0" [] "abcd1234" none =
      "@my-scope-pkg@1.0.0_abcd1234.js" ∧
    parseDepFilename "@my-scope-pkg@1.0.0_abcd1234.js" =
      some ⟨"@my/scope-pkg@1.0.0", []⟩ ∧
    ¬("@my/scope-pkg@1.0.0" = "@my-scope/pkg" ++ "@" ++ "1.0.0") :=
  ⟨by decide, by decide, by decide⟩

theorem takeWhile_append_of_all (p : Char → Bool) (a b : List Char)
    (ha : ∀ c ∈ a, p c = true) :
    (a ++ b).takeWhile p = a ++ b.takeWhile p := by
  induction a with
  | nil => simp
  | cons x t ih =>
    have hx : p x = true := ha x (List.mem_cons_self _ _)
    simp only [List.cons_append, List.takeWhile_cons, hx, if_true]
    rw [ih (fun c hc => ha c (List.mem_cons_of_mem _ hc))]

theorem takeWhile_append_stop (p : Char → Bool) (a : List Char) (c : Char)
    (b : List Char) (ha : a.all p = true) (hc : p c = false) :
    (a ++ c :: b).takeWhile p = a := by
  rw [takeWhile_append_of_all p a _ (List.all_eq_true.mp ha)]
  simp [List.takeWhile_cons, hc]

theorem dropWhile_append_stop (p : Char → Bool) (a : List Char) (c : Char)
    (b : List Char) (ha : a.all p = true) (hc : p c = false) :
    (a ++ c :: b).dropWhile p = c :: b := by
  rw [dropWhile_append_of_all p a _ (List.all_eq_true.mp ha)]
  simp [List.dropWhile_cons, hc]

theorem replaceAllChar_id (a b : Char) (l : List Char)
    (h : l.all (fun c => !(c = a)) = true) : replaceAllChar a b l = l := by
  induction l with
  | nil => rfl
  | cons x t ih =>
    simp only [List.all_cons, Bool.and_eq_true] at h
    have hx : ¬ x = a := by simpa using h.1
    simp only [replaceAllChar, List.map_cons, if_neg hx]
    have := ih h.2
    simp only [replaceAllChar] at this
    rw [this]

theorem cleanVersionChars_no_at : ∀ l : List Char,
    l.all (fun c => !(c = '@')) = true → cleanVersionChars l = l
  | [], _ => rfl
  | c :: t, h => by
    simp only [List.all_cons, Bool.and_eq_true] at h
    have hc : ¬ c = '@' := by simpa using h.1
    have ht := cleanVersionChars_no_at t (by
      cases t with
      | nil => rfl
      | cons c2 t2 => simpa using h.2)
    cases t with
    | nil => simp [cleanVersionChars, hc]
    | cons c2 t2 => simp [cleanVersionChars, hc, ht]

theorem splitPeersTail_no_underscore : ∀ l : List Char,
    l.all (fun c => !(c = '_')) = true → splitPeersTail l = none
  | [], _ => rfl
  | c :: t, h => by
    simp only [List.all_cons, Bool.and_eq_true] at h
    have hc : ¬ c = '_' := by simpa using h.1
    have ht := splitPeersTail_no_underscore t h.2
    by_cases hl : isLineTerm c = true
    · simp [splitPeersTail, hc, hl]
    · simp [splitPeersTail, hc, hl, ht]

theorem matchHashJs_has_underscore (l : List Char)
    (h : '_' ∈ l.take (l.length - 3)) : matchHashJs l = none := by
  unfold matchHashJs
  rw [if_neg]
  rintro ⟨-, -, h3⟩
  have := List.all_eq_true.mp h3 '_' h
  simp at this

theorem matchHashJs_eval (hash : List Char) (hne : hash.isEmpty = false)
    (hall : hash.all (fun c => !(c = '_')) = true) :
    matchHashJs (hash ++ ".js".data) = some hash := by
  have hlen : (hash ++ ".js".data).length - 3 = hash.length := by
    simp [List.length_append]
  unfold matchHashJs
  rw [hlen, List.take_left, List.drop_left]
  rw [if_pos]
  refine ⟨rfl, ?_, hall⟩
  simp [hne]

theorem splitPeersTail_eval : ∀ (g2 t g3 : List Char),
    g2.all (fun c => !(isLineTerm c)) = true →
    matchHashJs t = some g3 →
    3 ≤ t.length →
    splitPeersTail (g2 ++ '_' :: t) = some (g2, g3)
  | [], t, g3, _, hm, _ => by simp [splitPeersTail, hm]
  | c :: g2', t, g3, hg, hm, hlen => by
    simp only [List.all_cons, Bool.and_eq_true] at hg
    have ih := splitPeersTail_eval g2' t g3 hg.2 hm hlen
    by_cases hc : c = '_'
    · subst hc
      have hnone : matchHashJs (g2' ++ '_' :: t) = none := by
        apply matchHashJs_has_underscore
        have hl : (g2' ++ '_' :: t).length - 3 = g2'.length + t.length - 2 := by
          simp [List.length_append]
          omega
        rw [hl, List.take_append_eq_append_take]
        refine List.mem_append.mpr (Or.inr ?_)
        have h2 : g2'.length + t.length - 2 - g2'.length = t.length - 2 := by
          omega
        rw [h2]
        have h3 : (('_' :: t).take (t.length - 2)) =
            '_' :: t.take (t.length - 3) := by
          cases hn : t.length - 2 with
          | zero => omega
          | succ m =>
            simp [List.take_succ_cons]
            omega
        rw [h3]
        exact List.mem_cons_self _ _
      simp [splitPeersTail, hnone, ih]
    · have hlt : isLineTerm c = false := by simpa using hg.1
      simp [splitPeersTail, hc, hlt, ih]

theorem splitOnChar_no_sep (sep : Char) : ∀ l : List Char,
    l.all (fun c => !(c = sep)) = true → splitOnChar sep l = [l]
  | [], _ => rfl
  | c :: t, h => by
    simp only [List.all_cons, Bool.and_eq_true] at h
    have hc : ¬ c = sep := by simpa using h.1
    have ht := splitOnChar_no_sep sep t h.2
    simp [splitOnChar, hc, ht]

theorem splitOnChar_append_sep (sep : Char) : ∀ (a b : List Char),
    a.all (fun c => !(c = sep)) = true →
    splitOnChar sep (a ++ sep :: b) = a :: splitOnChar sep b
  | [], b, _ => by simp [splitOnChar]
  | c :: a', b, h => by
    simp only [List.all_cons, Bool.and_eq_true] at h
    have hc : ¬ c = sep := by simpa using h.1
    have ih := splitOnChar_append_sep sep a' b h.2
    simp [splitOnChar, hc, ih]

theorem replaceFirstChars_dash_id (rep : List Char) : ∀ l : List Char,
    l.all (fun c => !(c = '-')) = true →
    replaceFirstChars ['-'] rep l = l
  | [], _ => rfl
  | c :: t, h => by
    simp only [List.all_cons, Bool.and_eq_true] at h
    have hc : ¬ c = '-' := by simpa using h.1
    have ht := replaceFirstChars_dash_id rep t h.2
    have hpre : (['-'].isPrefixOf (c :: t)) = false := by
      simp [List.isPrefixOf]
      exact fun he => hc he.symm
    simp [replaceFirstChars, hpre, ht]

theorem replaceFirstChars_dash_split (rep : List Char) :
    ∀ (a b : List Char), a.all (fun c => !(c = '-')) = true →
    replaceFirstChars ['-'] rep (a ++ '-' :: b) = a ++ rep ++ b
  | [], b, _ => by
    simp [replaceFirstChars, List.isPrefixOf]
  | c :: a', b, h => by
    simp only [List.all_cons, Bool.and_eq_true] at h
    have hc : ¬ c = '-' := by simpa using h.1
    have ih := replaceFirstChars_dash_split rep a' b h.2
    have hpre : (['-'].isPrefixOf (c :: (a' ++ '-' :: b))) = false := by
      simp [List.isPrefixOf]
      exact fun he => hc he.symm
    simp [replaceFirstChars, hpre, ih]

/-- Well-formed unscoped package name: nonempty, with no at-sign (so the
version separator is unambiguous), no underscore and no slash. -/
def c3Unscoped (name : String) : Bool :=
  !name.data.isEmpty &&
    name.data.all (fun c => !(c = '@') && !(c = '_') && !(c = '/'))

/-- Well-formed scope segment: nonempty with no dash (the sanitized slash
must be the first dash), at-sign, underscore or slash. -/
def c3ScopeOk (scope : String) : Bool :=
  !scope.data.isEmpty &&
    scope.data.all (fun c =>
      !(c = '-') && !(c = '@') && !(c = '_') && !(c = '/'))

/-- Well-formed scoped package base name: nonempty with no at-sign,
underscore or slash. -/
def c3PkgOk (pkg : String) : Bool :=
  !pkg.data.isEmpty &&
    pkg.data.all (fun c => !(c = '@') && !(c = '_') && !(c = '/'))

/-- Well-formed version: nonempty with no underscore (the suffix separator)
and no at-sign (which cleanPackageVersion could rewrite). -/
def c3VersionOk (v : String) : Bool :=
  !v.data.isEmpty && v.data.all (fun c => !(c = '_') && !(c = '@'))

/-- Well-formed hash: nonempty with no underscore. -/
def c3HashOk (h : String) : Bool :=
  !h.data.isEmpty && h.data.all (fun c => !(c = '_'))

/-- Well-formed peer-context entry for a package: not the package itself, a
nonempty name free of underscores and line terminators that carries no dash
when scoped (the de-sanitizer would rewrite it), and a nonempty version of
digits and dots. -/
def c3PeerOk (name : String) (e : String × String) : Bool :=
  !(e.1 = name) &&
  !e.1.data.isEmpty &&
  e.1.data.all (fun c => !(c = '_') && !(isLineTerm c)) &&
  (!(strStartsWith e.1 "@") || e.1.data.all (fun c => !(c = '-'))) &&
  !e.2.data.isEmpty &&
  e.2.data.all isDigitDot

theorem group1Unscoped_eval (name v tail : List Char)
    (hn : name.all (fun c => !(c = '@')) = true) (hne : name.isEmpty = false)
    (hv : v.all (fun c => !(c = '_')) = true) (hvne : v.isEmpty = false) :
    group1Unscoped (name ++ '@' :: (v ++ '_' :: tail)) =
      some (name ++ '@' :: v, '_' :: tail) := by
  simp only [group1Unscoped]
  rw [takeWhile_append_stop _ _ _ _ hn (by decide),
    dropWhile_append_stop _ _ _ _ hn (by decide), hne]
  simp only [Bool.false_eq_true, if_false]
  rw [takeWhile_append_stop _ _ _ _ hv (by decide),
    dropWhile_append_stop _ _ _ _ hv (by decide), hvne]
  simp

theorem group1Scoped_eval (scope pkg v tail : List Char)
    (hs : scope.all (fun c => !(c = '-')) = true)
    (hsne : scope.isEmpty = false)
    (hp : pkg.all (fun c => !(c = '@')) = true) (hpne : pkg.isEmpty = false)
    (hv : v.all (fun c => !(c = '_')) = true) (hvne : v.isEmpty = false) :
    group1Scoped
        ('@' :: (scope ++ '-' :: (pkg ++ '@' :: (v ++ '_' :: tail)))) =
      some ('@' :: scope ++ '-' :: pkg ++ '@' :: v, '_' :: tail) := by
  simp only [group1Scoped]
  rw [takeWhile_append_stop _ _ _ _ hs (by decide),
    dropWhile_append_stop _ _ _ _ hs (by decide), hsne]
  simp only [Bool.false_eq_true, if_false]
  rw [takeWhile_append_stop _ _ _ _ hp (by decide),
    dropWhile_append_stop _ _ _ _ hp (by decide), hpne]
  simp only [Bool.false_eq_true, if_false]
  rw [takeWhile_append_stop _ _ _ _ hv (by decide),
    dropWhile_append_stop _ _ _ _ hv (by decide), hvne]
  simp

theorem entry_data (e : String × String) :
    (e.1 ++ "-" ++ e.2).data = e.1.data ++ '-' :: e.2.data := by
  rw [string_data_append, string_data_append]
  simp

theorem c3PeerOk_parts (name : String) (e : String × String)
    (h : c3PeerOk name e = true) :
    ¬(e.1 = name) ∧ e.1.data.isEmpty = false ∧
    e.1.data.all (fun c => !(c = '_') && !(isLineTerm c)) = true ∧
    (strStartsWith e.1 "@" = false ∨
      e.1.data.all (fun c => !(c = '-')) = true) ∧
    e.2.data.isEmpty = false ∧ e.2.data.all isDigitDot = true := by
  simp only [c3PeerOk, Bool.and_eq_true, Bool.not_eq_true',
    Bool.or_eq_true] at h
  obtain ⟨⟨⟨⟨⟨h1, h2⟩, h3⟩, h4⟩, h5⟩, h6⟩ := h
  refine ⟨by simpa using h1, h2, h3, ?_, h5, h6⟩
  rcases h4 with h4 | h4
  · exact Or.inl (by simpa using h4)
  · exact Or.inr h4

theorem parsePeerPart_eval (name : String) (e : String × String)
    (h : c3PeerOk name e = true) :
    parsePeerPart ((e.1 ++ "-" ++ e.2).data) = some (e.1 ++ "@" ++ e.2) := by
  obtain ⟨-, h2, h3, h4, h5, h6⟩ := c3PeerOk_parts name e h
  rw [entry_data]
  have hrev : (e.1.data ++ '-' :: e.2.data).reverse =
      e.2.data.reverse ++ '-' :: e.1.data.reverse := by
    simp
  have hk : ((e.1.data ++ '-' :: e.2.data).reverse.takeWhile
      isDigitDot).length = e.2.data.length := by
    rw [hrev, takeWhile_append_stop _ _ _ _ (by simpa using h6) (by decide)]
    simp
  have hlen : (e.1.data ++ '-' :: e.2.data).length =
      e.1.data.length + e.2.data.length + 1 := by
    simp [List.length_append]
    omega
  have h1ne : 1 ≤ e.1.data.length := by
    cases hd : e.1.data with
    | nil => rw [hd] at h2; simp at h2
    | cons a b => simp
  have h2ne : 1 ≤ e.2.data.length := by
    cases hd : e.2.data with
    | nil => rw [hd] at h5; simp at h5
    | cons a b => simp
  have hdesan : deSanitizePeerName e.1.data = e.1.data := by
    cases hd : e.1.data with
    | nil => rfl
    | cons c rest =>
      by_cases hc : c = '@'
      · subst hc
        have hsw : strStartsWith e.1 "@" = true := by
          simp [strStartsWith, hd, List.isPrefixOf]
        have hdash : rest.all (fun c => !(c = '-')) = true := by
          rcases h4 with h4 | h4
          · rw [hsw] at h4; cases h4
          · rw [hd] at h4
            simp only [List.all_cons, Bool.and_eq_true] at h4
            exact h4.2
        show '@' :: replaceFirstChars "-".data "/".data rest = _
        rw [show ("-" : String).data = ['-'] from rfl,
          replaceFirstChars_dash_id _ rest hdash]
      · simp [deSanitizePeerName, hc]
  simp only [parsePeerPart, splitPeerPart, hk]
  rw [if_pos (by omega)]
  have hdrop : (e.1.data ++ '-' :: e.2.data).length - e.2.data.length - 1 =
      e.1.data.length := by omega
  rw [hdrop, List.drop_left, List.take_left]
  show some ((⟨deSanitizePeerName e.1.data⟩ : String) ++ "@" ++
    (⟨e.2.data⟩ : String)) = some (e.1 ++ "@" ++ e.2)
  rw [hdesan]

theorem joinUnderscore_all (p : Char → Bool) (hp : p '_' = true) :
    ∀ ps : List String, ps.all (fun s => s.data.all p) = true →
    (joinUnderscore ps).data.all p = true
  | [], _ => rfl
  | [x], h => by simpa [joinUnderscore] using h
  | x :: y :: t, h => by
    simp only [List.all_cons, Bool.and_eq_true] at h
    have ih := joinUnderscore_all p hp (y :: t) (by
      simp only [List.all_cons, Bool.and_eq_true]
      exact ⟨h.2.1, h.2.2⟩)
    show ((x ++ "_") ++ joinUnderscore (y :: t)).data.all p = true
    rw [string_data_append, string_data_append]
    simp only [List.all_append, Bool.and_eq_true]
    refine ⟨⟨h.1, ?_⟩, ih⟩
    simpa using hp

theorem joinUnderscore_data_cons (x : String) (y : String) (t : List String) :
    (joinUnderscore (x :: y :: t)).data =
      x.data ++ '_' :: (joinUnderscore (y :: t)).data := by
  show ((x ++ "_") ++ joinUnderscore (y :: t)).data = _
  rw [string_data_append, string_data_append]
  simp

theorem entry_nounderscore (name : String) (e : String × String)
    (h : c3PeerOk name e = true) :
    (e.1 ++ "-" ++ e.2).data.all (fun c => !(c = '_')) = true := by
  obtain ⟨-, -, h3, -, -, h6⟩ := c3PeerOk_parts name e h
  rw [entry_data]
  simp only [List.all_append, List.all_cons, Bool.and_eq_true]
  refine ⟨?_, by decide, ?_⟩
  · rw [List.all_eq_true] at h3 ⊢
    intro c hc
    have := h3 c hc
    simp only [Bool.and_eq_true] at this
    exact this.1
  · rw [List.all_eq_true] at h6 ⊢
    intro c hc
    have hdd := h6 c hc
    by_cases hceq : c = '_'
    · rw [hceq] at hdd
      exact absurd hdd (by decide)
    · simp [hceq]

theorem peers_parse (name : String) : ∀ (e : String × String)
    (es : List (String × String)),
    (e :: es).all (c3PeerOk name) = true →
    (splitOnChar '_' (joinUnderscore
        ((e :: es).map (fun x => x.1 ++ "-" ++ x.2))).data).filterMap
      parsePeerPart = (e :: es).map (fun x => x.1 ++ "@" ++ x.2)
  | e, [], h => by
    simp only [List.all_cons, Bool.and_eq_true] at h
    simp only [List.map_cons, List.map_nil]
    show (splitOnChar '_' (e.1 ++ "-" ++ e.2).data).filterMap
      parsePeerPart = _
    rw [splitOnChar_no_sep _ _ (entry_nounderscore name e h.1)]
    have hpp := parsePeerPart_eval name e h.1
    rw [entry_data] at hpp
    simp [List.filterMap, hpp]
  | e, e2 :: es', h => by
    simp only [List.all_cons, Bool.and_eq_true] at h
    have ih := peers_parse name e2 es' (by
      simp only [List.all_cons, Bool.and_eq_true]
      exact ⟨h.2.1, h.2.2⟩)
    simp only [List.map_cons] at ih ⊢
    rw [joinUnderscore_data_cons,
      splitOnChar_append_sep _ _ _ (entry_nounderscore name e h.1)]
    simp only [List.filterMap_cons, parsePeerPart_eval name e h.1]
    rw [ih]

theorem ufpc_eq_map (name : String) (svg : Option (List String)) :
    ∀ pc : List (String × String),
    pc.all (c3PeerOk name) = true →
    pc.all (fun e =>
      !((svg.map (fun g => g.contains e.1)).getD false)) = true →
    pc.filterMap (fun e =>
      if e.1 = name then none
      else if (svg.map (fun g => g.contains e.1)).getD false then none
      else some (e.1 ++ "-" ++ e.2)) =
      pc.map (fun e => e.1 ++ "-" ++ e.2)
  | [], _, _ => rfl
  | e :: es, h1, h2 => by
    simp only [List.all_cons, Bool.and_eq_true] at h1 h2
    have ih := ufpc_eq_map name svg es h1.2 h2.2
    have hnn := (c3PeerOk_parts name e h1.1).1
    have hsvg : ((svg.map (fun g => g.contains e.1)).getD false) = false := by
      simpa using h2.1
    simp only [List.filterMap_cons, if_neg hnn, hsvg, Bool.false_eq_true,
      if_false, List.map_cons]
    rw [ih]

theorem parseDepFilename_of_parts (filename : String) (g1 r pk : List Char)
    (h1 : (if strStartsWith filename "@" then group1Scoped filename.data
           else group1Unscoped filename.data) = some (g1, '_' :: r))
    (h2 : (match splitPeersTail r with
           | some (g2, _) => some g2
           | none =>
             match matchHashJs r with
             | some _ => some ([] : List Char)
             | none => none) = some pk) :
    parseDepFilename filename =
      some ⟨if strStartsWith (⟨g1⟩ : String) "@"
            then replaceFirst ⟨g1⟩ "-" "/" else (⟨g1⟩ : String),
        if pk.isEmpty then []
        else (splitOnChar '_' pk).filterMap parsePeerPart⟩ := by
  simp only [parseDepFilename]
  rw [h1]
  simp only []
  rw [h2]

theorem isPrefixOf_at_cons_ne (c0 : Char) (t : List Char) (h : ¬(c0 = '@')) :
    (['@'].isPrefixOf (c0 :: t)) = false := by
  simp [List.isPrefixOf]
  exact fun he => h he.symm

theorem isDigitDot_not_lineTerm (c : Char) (h : isDigitDot c = true) :
    isLineTerm c = false := by
  by_cases h1 : c = '\n'
  · rw [h1] at h; exact absurd h (by decide)
  · by_cases h2 : c = '\x0d'
    · rw [h2] at h; exact absurd h (by decide)
    · by_cases h3 : c = '\u2028'
      · rw [h3] at h; exact absurd h (by decide)
      · by_cases h4 : c = '\u2029'
        · rw [h4] at h; exact absurd h (by decide)
        · simp [isLineTerm, h1, h2, h3, h4]

theorem strStartsWith_at (s : String) :
    strStartsWith s "@" = ['@'].isPrefixOf s.data := rfl

theorem roundtrip_unscoped (name version hash : String)
    (pc : List (String × String)) (svg : Option (List String))
    (hn : c3Unscoped name = true) (hv : c3VersionOk version = true)
    (hh : c3HashOk hash = true) (hpc : pc.all (c3PeerOk name) = true)
    (hsvg : pc.all (fun e =>
      !((svg.map (fun g => g.contains e.1)).getD false)) = true) :
    parseDepFilename (buildDepFilename name version pc hash svg) =
      some ⟨name ++ "@" ++ version, pc.map (fun e => e.1 ++ "@" ++ e.2)⟩ := by
  simp only [c3Unscoped, Bool.and_eq_true] at hn
  simp only [c3VersionOk, Bool.and_eq_true] at hv
  simp only [c3HashOk, Bool.and_eq_true] at hh
  have hnne : name.data.isEmpty = false := by simpa using hn.1
  have hnall := List.all_eq_true.mp hn.2
  have hnat : name.data.all (fun c => !(c = '@')) = true :=
    List.all_eq_true.mpr (fun c hc => by
      have := hnall c hc
      simp only [Bool.and_eq_true] at this
      exact this.1.1)
  have hnslash : name.data.all (fun c => !(c = '/')) = true :=
    List.all_eq_true.mpr (fun c hc => by
      have := hnall c hc
      simp only [Bool.and_eq_true] at this
      exact this.2)
  have hvund : version.data.all (fun c => !(c = '_')) = true :=
    List.all_eq_true.mpr (fun c hc => by
      have := List.all_eq_true.mp hv.2 c hc
      simp only [Bool.and_eq_true] at this
      exact this.1)
  have hvat : version.data.all (fun c => !(c = '@')) = true :=
    List.all_eq_true.mpr (fun c hc => by
      have := List.all_eq_true.mp hv.2 c hc
      simp only [Bool.and_eq_true] at this
      exact this.2)
  have hvne : version.data.isEmpty = false := by simpa using hv.1
  have hhne : hash.data.isEmpty = false := by simpa using hh.1
  have hhall := hh.2
  have hsan : replaceAllChar '/' '-' name.data = name.data :=
    replaceAllChar_id _ _ _ hnslash
  have hlckd : (cleanPackageVersion version).data = version.data :=
    cleanVersionChars_no_at _ hvat
  obtain ⟨c0, nd, hname⟩ : ∃ c0 nd, name.data = c0 :: nd := by
    cases hq : name.data with
    | nil => rw [hq] at hnne; simp at hnne
    | cons a b => exact ⟨a, b, rfl⟩
  have hc0 : ¬(c0 = '@') := by
    have := hnall c0 (by rw [hname]; exact List.mem_cons_self _ _)
    simp only [Bool.and_eq_true] at this
    simpa using this.1.1
  have hrall : (hash.data ++ ".js".data).all (fun c => !(c = '_')) = true := by
    simp only [List.all_append, Bool.and_eq_true]
    exact ⟨hhall, by decide⟩
  have hmh : matchHashJs (hash.data ++ ".js".data) = some hash.data :=
    matchHashJs_eval _ hhne hhall
  have hbase : (⟨name.data ++ '@' :: version.data⟩ : String) =
      name ++ "@" ++ version := by
    have hdd : (name ++ "@" ++ version).data =
        name.data ++ '@' :: version.data := by
      simp [string_data_append]
    rw [← hdd]
  have hsw2 : strStartsWith (⟨name.data ++ '@' :: version.data⟩ : String) "@"
      = false := by
    rw [strStartsWith_at]
    show (['@'].isPrefixOf (name.data ++ '@' :: version.data)) = false
    rw [hname, List.cons_append]
    exact isPrefixOf_at_cons_ne c0 _ hc0
  cases pc with
  | nil =>
    have hdata : (buildDepFilename name version [] hash svg).data =
        name.data ++ '@' ::
          (version.data ++ '_' :: (hash.data ++ ".js".data)) := by
      show ((⟨replaceAllChar '/' '-' name.data⟩ : String) ++ "@" ++
          cleanPackageVersion version ++ "_" ++ hash ++ ".js").data = _
      rw [hsan]
      simp only [string_data_append, hlckd]
      simp
    have hsw : strStartsWith (buildDepFilename name version [] hash svg) "@"
        = false := by
      rw [strStartsWith_at, hdata, hname, List.cons_append]
      exact isPrefixOf_at_cons_ne c0 _ hc0
    have h1 : (if strStartsWith (buildDepFilename name version [] hash svg) "@"
        then group1Scoped (buildDepFilename name version [] hash svg).data
        else group1Unscoped
          (buildDepFilename name version [] hash svg).data) =
        some (name.data ++ '@' :: version.data,
          '_' :: (hash.data ++ ".js".data)) := by
      rw [hsw]
      simp only [Bool.false_eq_true, if_false]
      rw [hdata]
      exact group1Unscoped_eval name.data version.data _ hnat hnne hvund hvne
    have h2 : (match splitPeersTail (hash.data ++ ".js".data) with
        | some (g2, _) => some g2
        | none =>
          match matchHashJs (hash.data ++ ".js".data) with
          | some _ => some ([] : List Char)
          | none => none) = some ([] : List Char) := by
      rw [splitPeersTail_no_underscore _ hrall, hmh]
    rw [parseDepFilename_of_parts _ _ _ _ h1 h2]
    rw [hsw2]
    simp only [Bool.false_eq_true, if_false, List.isEmpty_nil, if_true,
      List.map_nil]
    rw [hbase]
  | cons e es =>
    have hufpc := ufpc_eq_map name svg (e :: es) hpc hsvg
    have hg2lt : ((joinUnderscore
        ((e :: es).map (fun x => x.1 ++ "-" ++ x.2))).data).all
        (fun c => !(isLineTerm c)) = true := by
      apply joinUnderscore_all _ (by decide)
      rw [List.all_eq_true]
      intro s hs
      rcases List.mem_map.mp hs with ⟨x, hx, rfl⟩
      have hxok := List.all_eq_true.mp hpc x hx
      obtain ⟨-, -, hx3, -, -, hx6⟩ := c3PeerOk_parts name x hxok
      rw [entry_data]
      simp only [List.all_append, List.all_cons, Bool.and_eq_true]
      refine ⟨?_, by decide, ?_⟩
      · rw [List.all_eq_true]
        intro c hc
        have := List.all_eq_true.mp hx3 c hc
        simp only [Bool.and_eq_true] at this
        exact this.2
      · rw [List.all_eq_true]
        intro c hc
        have := List.all_eq_true.mp hx6 c hc
        simpa using isDigitDot_not_lineTerm c this
    have hg2ne : ((joinUnderscore
        ((e :: es).map (fun x => x.1 ++ "-" ++ x.2))).data).isEmpty
        = false := by
      obtain ⟨-, he2, -, -, -, -⟩ :=
        c3PeerOk_parts name e (List.all_eq_true.mp hpc e
          (List.mem_cons_self _ _))
      obtain ⟨c1, t1, he1⟩ : ∃ c1 t1, e.1.data = c1 :: t1 := by
        cases hq : e.1.data with
        | nil => rw [hq] at he2; simp at he2
        | cons a b => exact ⟨a, b, rfl⟩
      simp only [List.map_cons]
      obtain ⟨t, ht⟩ := joinUnderscore_cons_data (e.1 ++ "-" ++ e.2)
        (es.map (fun x => x.1 ++ "-" ++ x.2))
      rw [ht, entry_data, he1]
      simp
    have hlen3 : 3 ≤ (hash.data ++ ".js".data).length := by
      simp [List.length_append]
    have hdata : (buildDepFilename name version (e :: es) hash svg).data =
        name.data ++ '@' :: (version.data ++ '_' ::
          ((joinUnderscore ((e :: es).map (fun x => x.1 ++ "-" ++ x.2))).data
            ++ '_' :: (hash.data ++ ".js".data))) := by
      have hb : buildDepFilename name version (e :: es) hash svg =
          (⟨replaceAllChar '/' '-' name.data⟩ : String) ++ "@" ++
            cleanPackageVersion version ++ "_" ++
            joinUnderscore ((e :: es).map (fun x => x.1 ++ "-" ++ x.2)) ++
            "_" ++ hash ++ ".js" := by
        simp only [buildDepFilename, hufpc]
        rw [if_pos (by simp)]
      rw [hb, hsan]
      simp only [string_data_append, hlckd]
      simp
    have hsw : strStartsWith
        (buildDepFilename name version (e :: es) hash svg) "@" = false := by
      rw [strStartsWith_at, hdata, hname, List.cons_append]
      exact isPrefixOf_at_cons_ne c0 _ hc0
    have h1 : (if strStartsWith
          (buildDepFilename name version (e :: es) hash svg) "@"
        then group1Scoped
          (buildDepFilename name version (e :: es) hash svg).data
        else group1Unscoped
          (buildDepFilename name version (e :: es) hash svg).data) =
        some (name.data ++ '@' :: version.data,
          '_' :: ((joinUnderscore
            ((e :: es).map (fun x => x.1 ++ "-" ++ x.2))).data
            ++ '_' :: (hash.data ++ ".js".data))) := by
      rw [hsw]
      simp only [Bool.false_eq_true, if_false]
      rw [hdata]
      exact group1Unscoped_eval name.data version.data _ hnat hnne hvund hvne
    have h2 : (match splitPeersTail
          ((joinUnderscore ((e :: es).map (fun x => x.1 ++ "-" ++ x.2))).data
            ++ '_' :: (hash.data ++ ".js".data)) with
        | some (g2, _) => some g2
        | none =>
          match matchHashJs
            ((joinUnderscore ((e :: es).map (fun x => x.1 ++ "-" ++ x.2))).data
              ++ '_' :: (hash.data ++ ".js".data)) with
          | some _ => some ([] : List Char)
          | none => none) =
        some ((joinUnderscore
          ((e :: es).map (fun x => x.1 ++ "-" ++ x.2))).data) := by
      rw [splitPeersTail_eval _ _ hash.data hg2lt hmh hlen3]
    rw [parseDepFilename_of_parts _ _ _ _ h1 h2]
    rw [hsw2]
    simp only [Bool.false_eq_true, if_false]
    rw [hbase, hg2ne]
    simp only [Bool.false_eq_true, if_false]
    rw [peers_parse name e es hpc]

theorem roundtrip_scoped (scope pkg version hash : String)
    (pc : List (String × String)) (svg : Option (List String))
    (hs : c3ScopeOk scope = true) (hp : c3PkgOk pkg = true)
    (hv : c3VersionOk version = true) (hh : c3HashOk hash = true)
    (hpc : pc.all (c3PeerOk ("@" ++ scope ++ "/" ++ pkg)) = true)
    (hsvg : pc.all (fun e =>
      !((svg.map (fun g => g.contains e.1)).getD false)) = true) :
    parseDepFilename (buildDepFilename ("@" ++ scope ++ "/" ++ pkg) version
        pc hash svg) =
      some ⟨"@" ++ scope ++ "/" ++ pkg ++ "@" ++ version,
        pc.map (fun e => e.1 ++ "@" ++ e.2)⟩ := by
  simp only [c3ScopeOk, Bool.and_eq_true] at hs
  simp only [c3PkgOk, Bool.and_eq_true] at hp
  simp only [c3VersionOk, Bool.and_eq_true] at hv
  simp only [c3HashOk, Bool.and_eq_true] at hh
  have hsne : scope.data.isEmpty = false := by simpa using hs.1
  have hsall := List.all_eq_true.mp hs.2
  have hsdash : scope.data.all (fun c => !(c = '-')) = true :=
    List.all_eq_true.mpr (fun c hc => by
      have := hsall c hc
      simp only [Bool.and_eq_true] at this
      exact this.1.1.1)
  have hsslash : scope.data.all (fun c => !(c = '/')) = true :=
    List.all_eq_true.mpr (fun c hc => by
      have := hsall c hc
      simp only [Bool.and_eq_true] at this
      exact this.2)
  have hpne : pkg.data.isEmpty = false := by simpa using hp.1
  have hpall := List.all_eq_true.mp hp.2
  have hpat : pkg.data.all (fun c => !(c = '@')) = true :=
    List.all_eq_true.mpr (fun c hc => by
      have := hpall c hc
      simp only [Bool.and_eq_true] at this
      exact this.1.1)
  have hpslash : pkg.data.all (fun c => !(c = '/')) = true :=
    List.all_eq_true.mpr (fun c hc => by
      have := hpall c hc
      simp only [Bool.and_eq_true] at this
      exact this.2)
  have hvund : version.data.all (fun c => !(c = '_')) = true :=
    List.all_eq_true.mpr (fun c hc => by
      have := List.all_eq_true.mp hv.2 c hc
      simp only [Bool.and_eq_true] at this
      exact this.1)
  have hvat : version.data.all (fun c => !(c = '@')) = true :=
    List.all_eq_true.mpr (fun c hc => by
      have := List.all_eq_true.mp hv.2 c hc
      simp only [Bool.and_eq_true] at this
      exact this.2)
  have hvne : version.data.isEmpty = false := by simpa using hv.1
  have hhne : hash.data.isEmpty = false := by simpa using hh.1
  have hhall := hh.2
  have hnd : (("@" ++ scope ++ "/" ++ pkg) : String).data =
      '@' :: (scope.data ++ '/' :: pkg.data) := by
    simp [string_data_append]
  have hsan : replaceAllChar '/' '-'
      (("@" ++ scope ++ "/" ++ pkg) : String).data =
      '@' :: (scope.data ++ '-' :: pkg.data) := by
    rw [hnd]
    show List.map _ _ = _
    rw [List.map_cons, List.map_append, List.map_cons]
    have h1 : List.map (fun c => if c = '/' then '-' else c) scope.data =
        scope.data := replaceAllChar_id '/' '-' scope.data hsslash
    have h2 : List.map (fun c => if c = '/' then '-' else c) pkg.data =
        pkg.data := replaceAllChar_id '/' '-' pkg.data hpslash
    rw [h1, h2]
    simp
  have hlckd : (cleanPackageVersion version).data = version.data :=
    cleanVersionChars_no_at _ hvat
  have hrall : (hash.data ++ ".js".data).all (fun c => !(c = '_')) = true := by
    simp only [List.all_append, Bool.and_eq_true]
    exact ⟨hhall, by decide⟩
  have hmh : matchHashJs (hash.data ++ ".js".data) = some hash.data :=
    matchHashJs_eval _ hhne hhall
  have hswg : strStartsWith (⟨'@' :: scope.data ++ '-' :: pkg.data ++
      '@' :: version.data⟩ : String) "@" = true := by
    rw [strStartsWith_at]
    show (['@'].isPrefixOf ('@' :: scope.data ++ '-' :: pkg.data ++
      '@' :: version.data)) = true
    simp [List.isPrefixOf]
  have hrf : replaceFirst (⟨'@' :: scope.data ++ '-' :: pkg.data ++
      '@' :: version.data⟩ : String) "-" "/" =
      "@" ++ scope ++ "/" ++ pkg ++ "@" ++ version := by
    have hdd : ("@" ++ scope ++ "/" ++ pkg ++ "@" ++ version).data =
        '@' :: (scope.data ++ '/' :: (pkg.data ++ '@' :: version.data)) := by
      simp [string_data_append]
    show (⟨replaceFirstChars ['-'] ['/'] ('@' :: scope.data ++ '-' ::
      pkg.data ++ '@' :: version.data)⟩ : String) = _
    have hnorm : ('@' :: scope.data ++ '-' :: pkg.data ++ '@' ::
        version.data) = '@' :: (scope.data ++ '-' ::
        (pkg.data ++ '@' :: version.data)) := by simp
    rw [hnorm]
    have hpre : (['-'].isPrefixOf ('@' :: (scope.data ++ '-' ::
        (pkg.data ++ '@' :: version.data)))) = false := by
      simp [List.isPrefixOf]
    have hstep : replaceFirstChars ['-'] ['/'] ('@' :: (scope.data ++ '-' ::
        (pkg.data ++ '@' :: version.data))) =
        '@' :: replaceFirstChars ['-'] ['/'] (scope.data ++ '-' ::
          (pkg.data ++ '@' :: version.data)) := by
      simp [replaceFirstChars, hpre]
    rw [hstep, replaceFirstChars_dash_split _ _ _ hsdash]
    have hnn : ('@' :: (scope.data ++ ['/'] ++
        (pkg.data ++ '@' :: version.data))) =
        ("@" ++ scope ++ "/" ++ pkg ++ "@" ++ version).data := by
      rw [hdd]
      simp
    rw [hnn]
  cases pc with
  | nil =>
    have hdata : (buildDepFilename ("@" ++ scope ++ "/" ++ pkg) version []
        hash svg).data = '@' :: (scope.data ++ '-' :: (pkg.data ++ '@' ::
          (version.data ++ '_' :: (hash.data ++ ".js".data)))) := by
      show ((⟨replaceAllChar '/' '-'
          (("@" ++ scope ++ "/" ++ pkg) : String).data⟩ : String) ++ "@" ++
          cleanPackageVersion version ++ "_" ++ hash ++ ".js").data = _
      rw [hsan]
      simp only [string_data_append, hlckd]
      simp
    have hsw : strStartsWith (buildDepFilename ("@" ++ scope ++ "/" ++ pkg)
        version [] hash svg) "@" = true := by
      rw [strStartsWith_at, hdata]
      simp [List.isPrefixOf]
    have h1 : (if strStartsWith (buildDepFilename
          ("@" ++ scope ++ "/" ++ pkg) version [] hash svg) "@"
        then group1Scoped (buildDepFilename ("@" ++ scope ++ "/" ++ pkg)
          version [] hash svg).data
        else group1Unscoped (buildDepFilename ("@" ++ scope ++ "/" ++ pkg)
          version [] hash svg).data) =
        some ('@' :: scope.data ++ '-' :: pkg.data ++ '@' :: version.data,
          '_' :: (hash.data ++ ".js".data)) := by
      rw [hsw]
      simp only [if_true]
      rw [hdata]
      exact group1Scoped_eval scope.data pkg.data version.data _
        hsdash hsne hpat hpne hvund hvne
    have h2 : (match splitPeersTail (hash.data ++ ".js".data) with
        | some (g2, _) => some g2
        | none =>
          match matchHashJs (hash.data ++ ".js".data) with
          | some _ => some ([] : List Char)
          | none => none) = some ([] : List Char) := by
      rw [splitPeersTail_no_underscore _ hrall, hmh]
    rw [parseDepFilename_of_parts _ _ _ _ h1 h2]
    rw [hswg]
    simp only [if_true, List.isEmpty_nil, List.map_nil]
    rw [hrf]
  | cons e es =>
    have hufpc := ufpc_eq_map ("@" ++ scope ++ "/" ++ pkg) svg (e :: es)
      hpc hsvg
    have hg2lt : ((joinUnderscore
        ((e :: es).map (fun x => x.1 ++ "-" ++ x.2))).data).all
        (fun c => !(isLineTerm c)) = true := by
      apply joinUnderscore_all _ (by decide)
      rw [List.all_eq_true]
      intro s2 hs2
      rcases List.mem_map.mp hs2 with ⟨x, hx, rfl⟩
      have hxok := List.all_eq_true.mp hpc x hx
      obtain ⟨-, -, hx3, -, -, hx6⟩ :=
        c3PeerOk_parts ("@" ++ scope ++ "/" ++ pkg) x hxok
      rw [entry_data]
      simp only [List.all_append, List.all_cons, Bool.and_eq_true]
      refine ⟨?_, by decide, ?_⟩
      · rw [List.all_eq_true]
        intro c hc
        have := List.all_eq_true.mp hx3 c hc
        simp only [Bool.and_eq_true] at this
        exact this.2
      · rw [List.all_eq_true]
        intro c hc
        have := List.all_eq_true.mp hx6 c hc
        simpa using isDigitDot_not_lineTerm c this
    have hg2ne : ((joinUnderscore
        ((e :: es).map (fun x => x.1 ++ "-" ++ x.2))).data).isEmpty
        = false := by
      obtain ⟨-, he2, -, -, -, -⟩ :=
        c3PeerOk_parts ("@" ++ scope ++ "/" ++ pkg) e
          (List.all_eq_true.mp hpc e (List.mem_cons_self _ _))
      obtain ⟨c1, t1, he1⟩ : ∃ c1 t1, e.1.data = c1 :: t1 := by
        cases hq : e.1.data with
        | nil => rw [hq] at he2; simp at he2
        | cons a b => exact ⟨a, b, rfl⟩
      simp only [List.map_cons]
      obtain ⟨t, ht⟩ := joinUnderscore_cons_data (e.1 ++ "-" ++ e.2)
        (es.map (fun x => x.1 ++ "-" ++ x.2))
      rw [ht, entry_data, he1]
      simp
    have hlen3 : 3 ≤ (hash.data ++ ".js".data).length := by
      simp [List.length_append]
    have hdata : (buildDepFilename ("@" ++ scope ++ "/" ++ pkg) version
        (e :: es) hash svg).data = '@' :: (scope.data ++ '-' ::
          (pkg.data ++ '@' :: (version.data ++ '_' ::
            ((joinUnderscore
              ((e :: es).map (fun x => x.1 ++ "-" ++ x.2))).data
              ++ '_' :: (hash.data ++ ".js".data))))) := by
      have hb : buildDepFilename ("@" ++ scope ++ "/" ++ pkg) version
          (e :: es) hash svg =
          (⟨replaceAllChar '/' '-'
            (("@" ++ scope ++ "/" ++ pkg) : String).data⟩ : String) ++ "@" ++
            cleanPackageVersion version ++ "_" ++
            joinUnderscore ((e :: es).map (fun x => x.1 ++ "-" ++ x.2)) ++
            "_" ++ hash ++ ".js" := by
        simp only [buildDepFilename, hufpc]
        rw [if_pos (by simp)]
      rw [hb, hsan]
      simp only [string_data_append, hlckd]
      simp
    have hsw : strStartsWith (buildDepFilename ("@" ++ scope ++ "/" ++ pkg)
        version (e :: es) hash svg) "@" = true := by
      rw [strStartsWith_at, hdata]
      simp [List.isPrefixOf]
    have h1 : (if strStartsWith (buildDepFilename
          ("@" ++ scope ++ "/" ++ pkg) version (e :: es) hash svg) "@"
        then group1Scoped (buildDepFilename ("@" ++ scope ++ "/" ++ pkg)
          version (e :: es) hash svg).data
        else group1Unscoped (buildDepFilename ("@" ++ scope ++ "/" ++ pkg)
          version (e :: es) hash svg).data) =
        some ('@' :: scope.data ++ '-' :: pkg.data ++ '@' :: version.data,
          '_' :: ((joinUnderscore
            ((e :: es).map (fun x => x.1 ++ "-" ++ x.2))).data
            ++ '_' :: (hash.data ++ ".js".data))) := by
      rw [hsw]
      simp only [if_true]
      rw [hdata]
      exact group1Scoped_eval scope.data pkg.data version.data _
        hsdash hsne hpat hpne hvund hvne
    have h2 : (match splitPeersTail
          ((joinUnderscore ((e :: es).map (fun x => x.1 ++ "-" ++ x.2))).data
            ++ '_' :: (hash.data ++ ".js".data)) with
        | some (g2, _) => some g2
        | none =>
          match matchHashJs
            ((joinUnderscore ((e :: es).map (fun x => x.1 ++ "-" ++ x.2))).data
              ++ '_' :: (hash.data ++ ".js".data)) with
          | some _ => some ([] : List Char)
          | none => none) =
        some ((joinUnderscore
          ((e :: es).map (fun x => x.1 ++ "-" ++ x.2))).data) := by
      rw [splitPeersTail_eval _ _ hash.data hg2lt hmh hlen3]
    rw [parseDepFilename_of_parts _ _ _ _ h1 h2]
    rw [hswg]
    simp only [if_true]
    rw [hrf, hg2ne]
    simp only [Bool.false_eq_true, if_false]
    rw [peers_parse ("@" ++ scope ++ "/" ++ pkg) e es hpc]

/-- C3 (amended): for a well-formed unscoped or scoped package name, version,
peer-context map and hash — nonempty components; no at-sign, underscore or
slash inside the name segments; a dash-free scope; no underscore or at-sign
in the version; no underscore in the hash; and peer entries that are not the
package itself or a sameVersionRequired group member, have underscore-free
and line-terminator-free names that carry no dash when scoped, and
digits-and-dots versions — parsing the mirror filename built by the save
stage recovers exactly the original name-at-version base and peer entries.
Outside these shapes the round trip fails, for example when the scope
contains a dash (see the counterexample). -/
theorem parseDepFilename_roundtrip :
    (∀ (name version hash : String) (pc : List (String × String))
        (svg : Option (List String)),
      c3Unscoped name = true → c3VersionOk version = true →
      c3HashOk hash = true → pc.all (c3PeerOk name) = true →
      pc.all (fun e =>
        !((svg.map (fun g => g.contains e.1)).getD false)) = true →
      parseDepFilename (buildDepFilename name version pc hash svg) =
        some ⟨name ++ "@" ++ version,
          pc.map (fun e => e.1 ++ "@" ++ e.2)⟩) ∧
    (∀ (scope pkg version hash : String) (pc : List (String × String))
        (svg : Option (List String)),
      c3ScopeOk scope = true → c3PkgOk pkg = true →
      c3VersionOk version = true → c3HashOk hash = true →
      pc.all (c3PeerOk ("@" ++ scope ++ "/" ++ pkg)) = true →
      pc.all (fun e =>
        !((svg.map (fun g => g.contains e.1)).getD false)) = true →
      parseDepFilename (buildDepFilename ("@" ++ scope ++ "/" ++ pkg)
          version pc hash svg) =
        some ⟨"@" ++ scope ++ "/" ++ pkg ++ "@" ++ version,
          pc.map (fun e => e.1 ++ "@" ++ e.2)⟩) :=
  ⟨fun name version hash pc svg h1 h2 h3 h4 h5 =>
     roundtrip_unscoped name version hash pc svg h1 h2 h3 h4 h5,
   fun scope pkg version hash pc svg h1 h2 h3 h4 h5 h6 =>
     roundtrip_scoped scope pkg version hash pc svg h1 h2 h3 h4 h5 h6⟩

/-- C3 witness: the round trip applied to the test suite's
framer-motion@10.16.16 filename with a react peer and to the scoped
antfu/ni filename. -/
theorem parseDepFilename_roundtrip_witness :
    parseDepFilename (buildDepFilename "framer-motion" "10.16.16"
        [("react", "18.1.0")] "006ab095" none) =
      some ⟨"framer-motion" ++ "@" ++ "10.16.16",
        [("react", "18.1.0")].map (fun e => e.1 ++ "@" ++ e.2)⟩ ∧
    parseDepFilename (buildDepFilename ("@" ++ "antfu" ++ "/" ++ "ni")
        "25.0.0" [] "e59d44ed" none) =
      some ⟨"@" ++ "antfu" ++ "/" ++ "ni" ++ "@" ++ "25.0.0",
        ([] : List (String × String)).map (fun e => e.1 ++ "@" ++ e.2)⟩ :=
  ⟨parseDepFilename_roundtrip.1 "framer-motion" "10.16.16" "006ab095"
      [("react", "18.1.0")] none (by decide) (by decide) (by decide)
      (by decide) (by decide),
   parseDepFilename_roundtrip.2 "antfu" "ni" "25.0.0" "e59d44ed" [] none
      (by decide) (by decide) (by decide) (by decide) (by decide)
      (by decide)⟩

-- ===== C5: import rewriter idempotence (part_003 lines 26-272) =====

/-- A lookup-index package entry as the rewriter reads it. -/
structure ProcPkg where
  name : String
  version : String
  transformed : Bool
  deriving DecidableEq

/-- String.prototype.lastIndexOf for an at-sign, on character lists. -/
def lastAtIdx : List Char → Option Nat
  | [] => none
  | c :: t =>
    match lastAtIdx t with
    | some i => some (i + 1)
    | none => if c = '@' then some 0 else none

/-- Package-entry resolution of the main loop (part_003 lines 44-57): parse
the filename, split the base at its last at-sign (requiring a positive
index) and look the pair up in lookupIndex.packages. -/
def resolvePkg (packages : List ProcPkg) (filename : String) :
    Option ProcPkg :=
  match parseDepFilename filename with
  | none => none
  | some parsed =>
    match lastAtIdx parsed.baseDepNameVersion.data with
    | some atIdx =>
      if atIdx > 0 then
        packages.find? (fun p =>
          decide (p.name = (⟨parsed.baseDepNameVersion.data.take atIdx⟩ :
              String)) &&
          decide (p.version =
            (⟨parsed.baseDepNameVersion.data.drop (atIdx + 1)⟩ : String)))
      else none
    | none => none

/-- newImport computation for one import (part_003 lines 96-196): imports
already under /dependencies are skipped; esm.sh imports map through
urlToFile; other absolute imports try exact containment then the scored best
match and throw without a mapping; relative imports go through the nested
relative-import resolution (getNestedImportPath, abstracted here as the
resolver argument) and throw without a mapping; anything else is left
alone. -/
def resolveNewImport (urlToFile : List (String × String))
    (nestedResolve : String → Except String (Option String))
    (originalImport : String) : Except String (Option String) :=
  if strStartsWith originalImport "/dependencies" then Except.ok none
  else if strStartsWith originalImport "https://esm.sh/" then
    match jsGet urlToFile originalImport with
    | some fn => Except.ok (some ("/dependencies/" ++ fn))
    | none => Except.ok none
  else if strStartsWith originalImport "/" then
    let exact := (urlToFile.map Prod.fst).find?
      (fun url => containsSub originalImport.data url.data)
    let matchingUrl :=
      match exact with
      | some u => some u
      | none => findBestMatchingUrl urlToFile originalImport
    match matchingUrl with
    | some mu =>
      match jsGet urlToFile mu with
      | some fn => Except.ok (some ("/dependencies/" ++ fn))
      | none => Except.error
          ("No mapping found for absolute import: " ++ originalImport)
    | none => Except.error
        ("No mapping found for absolute import: " ++ originalImport)
  else if strStartsWith originalImport "./" ||
      strStartsWith originalImport "../" then
    match nestedResolve originalImport with
    | Except.error e => Except.error e
    | Except.ok (some url) =>
      match jsGet urlToFile url with
      | some fn => Except.ok (some ("/dependencies/" ++ fn))
      | none => Except.error
          ("No mapping found for relative import: " ++ originalImport)
    | Except.ok none => Except.error
        ("No mapping found for relative import: " ++ originalImport)
  else Except.ok none

/-- The per-file import loop (part_003 lines 96-236): resolve each import,
substitute when a new target differs from the original (the four regex
substitutions abstracted as the subst argument, whose flag is the length
comparison that sets modified), and count the replacements. -/
def processImports (urlToFile : List (String × String))
    (nestedResolve : String → Except String (Option String))
    (subst : JsContent → String → String → JsContent × Bool) :
    List String → JsContent → Nat → Except String (JsContent × Nat)
  | [], content, reps => Except.ok (content, reps)
  | imp :: rest, content, reps =>
    match resolveNewImport urlToFile nestedResolve imp with
    | Except.error e => Except.error e
    | Except.ok none =>
      processImports urlToFile nestedResolve subst rest content reps
    | Except.ok (some ni) =>
      if ni = imp then
        processImports urlToFile nestedResolve subst rest content reps
      else
        let r := subst content imp ni
        processImports urlToFile nestedResolve subst rest r.1
          (if r.2 then reps + 1 else reps)

/-- One file of the main loop: skip a transformed package outright; track
the package for the transformed flag otherwise, with or without imports. -/
def processFile (packages : List ProcPkg)
    (urlToFile : List (String × String))
    (nestedResolve : String → String → Except String (Option String))
    (subst : JsContent → String → String → JsContent × Bool)
    (filename : String) (content : JsContent) :
    Except String (JsContent × Nat × List ProcPkg) :=
  let pkg := resolvePkg packages filename
  if (pkg.map (fun p => p.transformed)).getD false then
    Except.ok (content, 0, [])
  else
    let originalImports := extractRawImportsWithBabel content
    if originalImports.isEmpty then Except.ok (content, 0, pkg.toList)
    else
      match processImports urlToFile (nestedResolve filename) subst
          originalImports content 0 with
      | Except.error e => Except.error e
      | Except.ok (c2, reps) => Except.ok (c2, reps, pkg.toList)

/-- Fold of the main loop over all mirror files. -/
def processFiles (packages : List ProcPkg)
    (urlToFile : List (String × String))
    (nestedResolve : String → String → Except String (Option String))
    (subst : JsContent → String → String → JsContent × Bool) :
    List (String × JsContent) →
      Except String (List (String × JsContent) × Nat × List ProcPkg)
  | [] => Except.ok ([], 0, [])
  | (fn, c) :: rest =>
    match processFile packages urlToFile nestedResolve subst fn c with
    | Except.error e => Except.error e
    | Except.ok (c2, reps, marks) =>
      match processFiles packages urlToFile nestedResolve subst rest with
      | Except.error e => Except.error e
      | Except.ok (fs, treps, tmarks) =>
        Except.ok ((fn, c2) :: fs, reps + treps, marks ++ tmarks)

/-- DependencyImportProcessor.processAllDependencies (part_003 lines
26-272): process every mirror file, then mark every processed package
transformed. -/
def processAllDependencies (packages : List ProcPkg)
    (urlToFile : List (String × String))
    (nestedResolve : String → String → Except String (Option String))
    (subst : JsContent → String → String → JsContent × Bool)
    (files : List (String × JsContent)) :
    Except String (List (String × JsContent) × Nat × List ProcPkg) :=
  match processFiles packages urlToFile nestedResolve subst files with
  | Except.error e => Except.error e
  | Except.ok (fs, treps, marks) =>
    Except.ok (fs, treps,
      packages.map (fun p =>
        if marks.contains p then { p with transformed := true } else p))

theorem processImports_all_deps (urlToFile : List (String × String))
    (nr : String → Except String (Option String))
    (subst : JsContent → String → String → JsContent × Bool) :
    ∀ (imps : List String) (content : JsContent) (reps : Nat),
      (∀ imp ∈ imps, strStartsWith imp "/dependencies" = true) →
      processImports urlToFile nr subst imps content reps =
        Except.ok (content, reps)
  | [], _, _, _ => rfl
  | imp :: rest, content, reps, h => by
    have h1 : strStartsWith imp "/dependencies" = true :=
      h imp (List.mem_cons_self _ _)
    have ih := processImports_all_deps urlToFile nr subst rest content reps
      (fun i hi => h i (List.mem_cons_of_mem _ hi))
    simp only [processImports, resolveNewImport, h1, if_true]
    exact ih

theorem resolvePkg_mem (packages : List ProcPkg) (filename : String)
    (p : ProcPkg) (h : resolvePkg packages filename = some p) :
    p ∈ packages := by
  simp only [resolvePkg] at h
  cases hp1 : parseDepFilename filename with
  | none =>
    rw [hp1] at h
    simp at h
  | some parsed =>
    rw [hp1] at h
    have h2 : (match lastAtIdx parsed.baseDepNameVersion.data with
        | some atIdx =>
          if atIdx > 0 then
            List.find? (fun q =>
              decide (q.name =
                (⟨parsed.baseDepNameVersion.data.take atIdx⟩ : String)) &&
              decide (q.version =
                (⟨parsed.baseDepNameVersion.data.drop (atIdx + 1)⟩ :
                  String))) packages
          else none
        | none => none) = some p := h
    clear h
    cases hp2 : lastAtIdx parsed.baseDepNameVersion.data with
    | none =>
      rw [hp2] at h2
      simp at h2
    | some atIdx =>
      rw [hp2] at h2
      have h4 : (if atIdx > 0 then
          List.find? (fun q =>
            decide (q.name =
              (⟨parsed.baseDepNameVersion.data.take atIdx⟩ : String)) &&
            decide (q.version =
              (⟨parsed.baseDepNameVersion.data.drop (atIdx + 1)⟩ :
                String))) packages
          else none) = some p := h2
      by_cases h3 : atIdx > 0
      · rw [if_pos h3] at h4
        exact List.mem_of_find?_eq_some h4
      · rw [if_neg h3] at h4
        simp at h4

/-- C5: on a fully transformed mirror — every lookup-index package entry
already marked transformed and every import of every file already a
/dependencies path — a second run of processAllDependencies leaves every
file byte-identical, performs zero substitutions, and flips no additional
transformed flag. -/
theorem processAllDependencies_idempotent
    (packages : List ProcPkg) (urlToFile : List (String × String))
    (nestedResolve : String → String → Except String (Option String))
    (subst : JsContent → String → String → JsContent × Bool)
    (files : List (String × JsContent))
    (ht : ∀ p ∈ packages, p.transformed = true)
    (himp : ∀ fn c, (fn, c) ∈ files →
      ∀ imp ∈ extractRawImportsWithBabel c,
        strStartsWith imp "/dependencies" = true) :
    processAllDependencies packages urlToFile nestedResolve subst files =
      Except.ok (files, 0, packages) := by
  have hfile : ∀ fn c, (fn, c) ∈ files →
      processFile packages urlToFile nestedResolve subst fn c =
        Except.ok (c, 0, []) := by
    intro fn c hm
    simp only [processFile]
    cases hpkg : resolvePkg packages fn with
    | some p =>
      have hp := resolvePkg_mem packages fn p hpkg
      have htp := ht p hp
      simp [htp]
    | none =>
      simp only [Option.map_none', Option.getD_none, Bool.false_eq_true,
        if_false, Option.toList_none]
      by_cases he : (extractRawImportsWithBabel c).isEmpty
      · rw [if_pos he]
      · rw [if_neg he]
        rw [processImports_all_deps urlToFile (nestedResolve fn) subst
          (extractRawImportsWithBabel c) c 0 (himp fn c hm)]
  have hfold : ∀ fs : List (String × JsContent),
      (∀ fn c, (fn, c) ∈ fs →
        processFile packages urlToFile nestedResolve subst fn c =
          Except.ok (c, 0, [])) →
      processFiles packages urlToFile nestedResolve subst fs =
        Except.ok (fs, 0, []) := by
    intro fs
    induction fs with
    | nil => intro _; rfl
    | cons hd tl ih =>
      intro hall
      obtain ⟨fn, c⟩ := hd
      have h1 := hall fn c (List.mem_cons_self _ _)
      have h2 := ih (fun fn2 c2 hm2 => hall fn2 c2 (List.mem_cons_of_mem _ hm2))
      simp only [processFiles, h1, h2]
      rfl
  simp only [processAllDependencies, hfold files hfile]
  simp [List.contains]

/-- Mirror state for the C5 witness: one transformed react entry and one
file whose only import is already a /dependencies path. -/
def filesC5 : List (String × JsContent) :=
  [("react@19.2.0_ab12cd34.js", JsContent.parsed
     [JsStmt.importDecl "/dependencies/scheduler@0.23.0_ffffffff.js"])]

/-- C5 witness: the idempotence theorem applied to the concrete one-file
mirror, with both hypotheses discharged by computation. -/
theorem processAllDependencies_idempotent_witness :
    processAllDependencies [⟨"react", "19.2.0", true⟩] []
      (fun _ _ => Except.ok none) (fun c _ _ => (c, false)) filesC5 =
      Except.ok (filesC5, 0, [⟨"react", "19.2.0", true⟩]) :=
  processAllDependencies_idempotent [⟨"react", "19.2.0", true⟩] []
    (fun _ _ => Except.ok none) (fun c _ _ => (c, false)) filesC5
    (by decide)
    (by
      intro fn c hm
      rw [show filesC5 = [("react@19.2.0_ab12cd34.js", JsContent.parsed
        [JsStmt.importDecl "/dependencies/scheduler@0.23.0_ffffffff.js"])]
        from rfl, List.mem_singleton] at hm
      injection hm with h1 h2
      subst h2
      decide)
